import Mathlib

/-!
Shallow embedding of the `bitcoin-rust` node (a proof-of-work blockchain with
account-based transfers) and proofs about its core operations.

Conventions of the embedding:
* 32-byte hashes (`H256`), 20-byte addresses, public keys and signatures are
  modelled as `Nat`.  The lexicographic byte order on `H256` (most significant
  byte first) coincides with the numeric order of the corresponding big-endian
  integer, so `<=` on `Nat` models the `H256` order.
* `std::collections::HashMap` is modelled as an association list with
  first-match lookup; `insert` replaces any previous binding of the key, as the
  Rust `HashMap::insert` does.
* The cryptographic primitives layer (SHA-256, Ed25519 keys, address
  derivation) lives outside the translated sources; every definition that
  needs it takes a `Crypto` bundle of those functions as a parameter.
* Rust panics (`unwrap` on `None`, indexing a map at a missing key) are
  modelled with `Option`-valued results where a claim depends on them.
-/

namespace BitcoinRust

/-! ### Association-list model of `HashMap` -/

/-- First-match lookup in an association list (`HashMap::get`). -/
def alookup {β : Type} : List (Nat × β) → Nat → Option β
  | [], _ => none
  | (k, v) :: rest, key => if k = key then some v else alookup rest key

/-- `HashMap::contains_key`. -/
def acontains {β : Type} (m : List (Nat × β)) (key : Nat) : Bool :=
  (alookup m key).isSome

/-- `HashMap::insert`: bind `key` to `v`, replacing any previous binding. -/
def ainsert {β : Type} (m : List (Nat × β)) (key : Nat) (v : β) : List (Nat × β) :=
  (key, v) :: m.filter (fun p => p.1 != key)

/-- `HashMap::remove` (the removed value is not used by the code we model). -/
def aremove {β : Type} (m : List (Nat × β)) (key : Nat) : List (Nat × β) :=
  m.filter (fun p => p.1 != key)

/-! ### Data model (`src/types`) -/

/-- `types/transaction.rs`: `Transaction`. -/
structure Transaction where
  account_nonce : Nat
  receiver : Nat
  value : Nat
  deriving DecidableEq, Repr

/-- `types/transaction.rs`: `SignedTransaction`. -/
structure SignedTransaction where
  transaction : Transaction
  signature : Nat
  public_key : Nat
  deriving DecidableEq, Repr

/-- `types/block.rs`: `Header`. -/
structure Header where
  parent : Nat
  nonce : Nat
  difficulty : Nat
  timestamp : Nat
  merkle_root : Nat
  deriving DecidableEq, Repr

/-- `types/block.rs`: `Content`. -/
structure Content where
  transactions : List SignedTransaction
  deriving DecidableEq, Repr

/-- `types/block.rs`: `Block`. -/
structure Block where
  header : Header
  content : Content
  deriving DecidableEq, Repr

def Block.get_parent (b : Block) : Nat := b.header.parent

def Block.get_difficulty (b : Block) : Nat := b.header.difficulty

/-- `types/state.rs`: `State`, mapping an address to `(account nonce, balance)`. -/
structure State where
  map : List (Nat × (Nat × Nat))
  deriving DecidableEq, Repr

/-- `types/mempool.rs`: `Mempool`, mapping a transaction hash to the transaction. -/
structure Mempool where
  map : List (Nat × SignedTransaction)
  deriving DecidableEq, Repr

/-- `blockchain/mod.rs`: `BlockNode`. -/
structure BlockNode where
  block : Block
  height : Nat
  state : State
  deriving DecidableEq, Repr

/-- `blockchain/mod.rs`: `Blockchain`. -/
structure Blockchain where
  map : List (Nat × BlockNode)
  tip : Nat
  deriving DecidableEq, Repr

/-- Modelled from the spec: the cryptographic primitives layer
(`types/hash.rs`, `types/address.rs`, `types/key_pair.rs` and the `ring`
crate are outside the translated sources).  `hashHeader` is the SHA-256 of the
serialized header (the hash of a `Block`), `hashTx` the SHA-256 of the
serialized `SignedTransaction`, `addrOfPk` the address derived from a public
key (last 20 bytes of its SHA-256 digest), `sigVerify` the Ed25519 signature
check of a serialized transaction, `keyOfSeed` the Ed25519 keypair grown from
a 32-byte seed, `pubOfKey` its public key, and `sign` the Ed25519 signature of
a serialized transaction under a keypair. -/
structure Crypto where
  hashHeader : Header → Nat
  hashTx : SignedTransaction → Nat
  addrOfPk : Nat → Nat
  sigVerify : Transaction → Nat → Nat → Bool
  keyOfSeed : Nat → Nat
  pubOfKey : Nat → Nat
  sign : Transaction → Nat → Nat

/-- `types/block.rs`: `Block::hash` hashes only the header. -/
def Block.hash (C : Crypto) (b : Block) : Nat := C.hashHeader b.header

/-! ### `blockchain/mod.rs`: insertion, `Blockchain::new`, reachability -/

/-- `Result<(), bool>` returned by `Blockchain::insert`: `Err(true)` means
the parent is missing, `Err(false)` means the block is invalid. -/
inductive InsertResult where
  | ok : InsertResult
  | err (missingParent : Bool) : InsertResult
  deriving DecidableEq, Repr

/-- The per-transaction validation of `Blockchain::insert` (lines 93-119):
signature check, sender presence in the parent state, nonce check, balance
check, in source order.  The loop returns `Err(false)` at the first failing
check; validating the whole block is `List.all` of this predicate. -/
def txnChecksOk (C : Crypto) (parent_state : State) (txn : SignedTransaction) : Bool :=
  C.sigVerify txn.transaction txn.public_key txn.signature &&
  match alookup parent_state.map (C.addrOfPk txn.public_key) with
  | none => false
  | some sender_info =>
    (sender_info.1 + 1 == txn.transaction.account_nonce) &&
    decide (txn.transaction.value ≤ sender_info.2)

/-- One iteration of the state-application loop of `Blockchain::insert`
(lines 123-139).  Both the sender and the receiver data are read from
`parent_state` (not from the state being built), and an address absent from
`parent_state` is skipped (`if let Some`). -/
def applyTxn (C : Crypto) (parent_state : State) (new_state : State)
    (txn : SignedTransaction) : State :=
  let sender_address := C.addrOfPk txn.public_key
  let receiver_address := txn.transaction.receiver
  let value := txn.transaction.value
  let st1 :=
    match alookup parent_state.map sender_address with
    | some sender_info =>
      ⟨ainsert new_state.map sender_address (sender_info.1 + 1, sender_info.2 - value)⟩
    | none => new_state
  match alookup parent_state.map receiver_address with
  | some receiver_info =>
    ⟨ainsert st1.map receiver_address (receiver_info.1, receiver_info.2 + value)⟩
  | none => st1

/-- The state stored with a freshly inserted block: the transactions applied
in order to a clone of the parent state. -/
def applyBlockTxns (C : Crypto) (parent_state : State)
    (txns : List SignedTransaction) : State :=
  txns.foldl (applyTxn C parent_state) parent_state

/-- `Blockchain::insert` (lines 75-157).  Returns the result together with
the blockchain after the call.  In the tip update the source unwraps
`map.get(&self.tip)`; the `none` branch below is unreachable for reachable
blockchains (the tip is always present, see `reachable_tipInv`) and keeps the
tip unchanged. -/
def Blockchain.insert (C : Crypto) (bc : Blockchain) (b : Block) :
    InsertResult × Blockchain :=
  match alookup bc.map b.get_parent with
  | none => (.err true, bc)
  | some parent_node =>
    if acontains bc.map (b.hash C) then (.err false, bc)
    else
      let height := parent_node.height + 1
      let parent_state := parent_node.state
      if ¬ b.content.transactions.all (txnChecksOk C parent_state) then (.err false, bc)
      else
        let new_state := applyBlockTxns C parent_state b.content.transactions
        let blocknode : BlockNode := ⟨b, height, new_state⟩
        let map' := ainsert bc.map (b.hash C) blocknode
        let tip' :=
          match alookup map' bc.tip with
          | some tip_node => if height > tip_node.height then b.hash C else bc.tip
          | none => bc.tip
        (.ok, ⟨map', tip'⟩)

/-- `Blockchain::get_block`. -/
def Blockchain.get_block (bc : Blockchain) (blockhash : Nat) : Option Block :=
  (alookup bc.map blockhash).map BlockNode.block

/-- `Blockchain::get_state`. -/
def Blockchain.get_state (bc : Blockchain) (blockhash : Nat) : Option State :=
  (alookup bc.map blockhash).map BlockNode.state

/-- The fixed difficulty from `Blockchain::new`, the 32-byte constant
`0000100000...` read as a big-endian integer. -/
def GENESIS_DIFFICULTY : Nat :=
  0x0000100000000000000000000000000000000000000000000000000000000000

/-- The deterministic genesis block of `Blockchain::new`: all-zero parent,
nonce 0, timestamp 0, no transactions.  The Merkle root of the empty
transaction list is the all-zero hash (`merkle.rs`, empty case), i.e. `0`. -/
def genesisBlock : Block :=
  { header := { parent := 0, nonce := 0, difficulty := GENESIS_DIFFICULTY,
                timestamp := 0, merkle_root := 0 },
    content := { transactions := [] } }

/-- The genesis state of `Blockchain::new`: the three accounts grown from the
seeds `[0;32]`, `[1;32]`, `[2;32]`, nonce 0, only the first with balance
`10000`. -/
def genesisState (C : Crypto) : State :=
  ⟨[0, 1, 2].foldl
    (fun m seed =>
      ainsert m (C.addrOfPk (C.pubOfKey (C.keyOfSeed seed)))
        (0, if seed = 0 then 10000 else 0))
    []⟩

/-- `Blockchain::new`. -/
def Blockchain.new (C : Crypto) : Blockchain :=
  let gh := genesisBlock.hash C
  ⟨[(gh, ⟨genesisBlock, 0, genesisState C⟩)], gh⟩

/-- The blockchain states reachable from `Blockchain::new` by any sequence of
`insert` calls. -/
inductive Reachable (C : Crypto) : Blockchain → Prop
  | base : Reachable C (Blockchain.new C)
  | step {bc : Blockchain} (b : Block) :
      Reachable C bc → Reachable C (bc.insert C b).2

/-! ### Concrete instances used for witnesses and counterexamples -/

/-- A concrete instantiation of the crypto bundle for evaluating witnesses:
hashes are chosen so that a header is identified by its nonce, key and address
derivation are the identity, and every signature verifies. -/
def testCrypto : Crypto where
  hashHeader := fun h => h.nonce
  hashTx := fun t => t.signature
  addrOfPk := fun pk => pk
  sigVerify := fun _ _ _ => true
  keyOfSeed := fun s => s
  pubOfKey := fun k => k
  sign := fun t k => t.account_nonce + t.value + k

/-- A valid transfer of 500 from the seeded account 0 to account 1. -/
def testTxn : SignedTransaction :=
  { transaction := { account_nonce := 1, receiver := 1, value := 500 },
    signature := 77, public_key := 0 }

/-- A block on top of the `testCrypto` genesis carrying `testTxn`. -/
def testBlock1 : Block :=
  { header := { parent := genesisBlock.hash testCrypto, nonce := 42,
                difficulty := GENESIS_DIFFICULTY, timestamp := 9,
                merkle_root := 5 },
    content := { transactions := [testTxn] } }

/-- The chain with one block on top of the `testCrypto` genesis. -/
def testChain1 : Blockchain :=
  ((Blockchain.new testCrypto).insert testCrypto testBlock1).2

/-- A crypto instantiation whose `sign`/`sigVerify` pair satisfies the
Ed25519 round-trip contract definitionally, for evaluating the generator
path. -/
def sigCrypto : Crypto where
  hashHeader := fun h => h.nonce
  hashTx := fun t => t.signature
  addrOfPk := fun pk => pk
  sigVerify := fun t pk sig => sig == t.account_nonce + t.value + pk
  keyOfSeed := fun s => s
  pubOfKey := fun k => k
  sign := fun t k => t.account_nonce + t.value + k

/-- A block that fails proof-of-work under `testCrypto`: its hash is 1 and
its difficulty 0. -/
def testBadPowBlock : Block :=
  { header := { parent := 0, nonce := 1, difficulty := 0, timestamp := 0,
                merkle_root := 0 },
    content := { transactions := [] } }

/-- A transfer from the seeded account 0 to the address 777, which is absent
from the genesis state. -/
def testTxnAbsent : SignedTransaction :=
  { transaction := { account_nonce := 1, receiver := 777, value := 500 },
    signature := 78, public_key := 0 }

/-- A block on top of the `testCrypto` genesis carrying `testTxnAbsent`. -/
def testBlockAbsent : Block :=
  { header := { parent := genesisBlock.hash testCrypto, nonce := 43,
                difficulty := GENESIS_DIFFICULTY, timestamp := 9,
                merkle_root := 5 },
    content := { transactions := [testTxnAbsent] } }

/-! ### `Blockchain::all_blocks_in_longest_chain` -/

/-- The loop of `Blockchain::all_blocks_in_longest_chain` (lines 196-201):
push the current hash, stop at a height-0 node, otherwise move to the parent.
The source loop is unbounded; `fuel` bounds the number of parent moves and is
instantiated with the tip's height, which suffices for reachable blockchains
(`chainWalk_spec`).  At fuel 0 the node is a height-0 node whenever the chain
invariant holds, so the early cut-off is dead code, as is the `none` branch
(the source unwraps there). -/
def chainWalk (m : List (Nat × BlockNode)) : Nat → Nat → List Nat
  | 0, h => [h]
  | f + 1, h =>
    h ::
      match alookup m h with
      | none => []
      | some node =>
        if node.height = 0 then [] else chainWalk m f node.block.get_parent

/-- `Blockchain::all_blocks_in_longest_chain` (lines 189-206): walk from the
tip to genesis, then reverse. -/
def Blockchain.all_blocks_in_longest_chain (bc : Blockchain) : List Nat :=
  let fuel :=
    match alookup bc.map bc.tip with
    | some node => node.height
    | none => 0
  (chainWalk bc.map fuel bc.tip).reverse

/-- Structural invariant of reachable blockchains: the genesis hash is bound
to a height-0 node, height-0 nodes are exactly the genesis binding, and every
node of positive height has its parent bound at the preceding height. -/
def ChainInv (C : Crypto) (bc : Blockchain) : Prop :=
  (∃ g, alookup bc.map (genesisBlock.hash C) = some g ∧ g.height = 0)
  ∧ ∀ k n, alookup bc.map k = some n →
      (n.height = 0 → k = genesisBlock.hash C)
      ∧ (0 < n.height →
          ∃ pn, alookup bc.map n.block.get_parent = some pn ∧
            pn.height + 1 = n.height)

/-! ### The gossip worker's `Blocks` handler (`network/worker.rs`) -/

/-- The mutable state of the `Message::Blocks` arm of `Worker::worker_loop`
(`network/worker.rs` lines 132-194): the growable worklist `blocks`, the
loop index `i`, the two shared containers, the per-worker orphan buffer, the
accumulated `new_block_hashes`, and the `GetBlocks` requests written back to
the peer. -/
structure BlocksState where
  blocks : List Block
  i : Nat
  bc : Blockchain
  mempool : Mempool
  orphan_buffer : List (Nat × List Block)
  new_block_hashes : List Nat
  requests : List Nat
  deriving Repr

/-- `orphan_buffer.entry(parent).or_insert_with(Vec::new).push(b)`. -/
def obInsert (ob : List (Nat × List Block)) (parent : Nat) (b : Block) :
    List (Nat × List Block) :=
  match alookup ob parent with
  | some l => ainsert ob parent (l ++ [b])
  | none => ainsert ob parent [b]

/-- The `while i < blocks.len()` loop of the `Blocks` arm, run with `fuel`
iterations; `none` means the fuel ran out, i.e. the loop performed more than
`fuel` iterations.  Note that the two `continue` statements of the source
(PoW failure at line 144, duplicate at line 149) skip the `i += 1` at the
bottom of the loop, so those branches re-process the same index with an
unchanged state. -/
def blocksRun (C : Crypto) : Nat → BlocksState → Option BlocksState
  | 0, _ => none
  | fuel + 1, s =>
    if h : s.i < s.blocks.length then
      let block := s.blocks.get ⟨s.i, h⟩
      if block.get_difficulty < block.hash C then
        blocksRun C fuel s
      else if acontains s.bc.map (block.hash C) then
        blocksRun C fuel s
      else
        match s.bc.insert C block with
        | (.ok, bc') =>
          let mp' : Mempool :=
            ⟨block.content.transactions.foldl
              (fun m txn => aremove m (C.hashTx txn)) s.mempool.map⟩
          match alookup s.orphan_buffer (block.hash C) with
          | some orphans =>
            blocksRun C fuel
              { s with blocks := s.blocks ++ orphans, i := s.i + 1, bc := bc',
                       mempool := mp',
                       orphan_buffer := aremove s.orphan_buffer (block.hash C),
                       new_block_hashes := s.new_block_hashes ++ [block.hash C] }
          | none =>
            blocksRun C fuel
              { s with i := s.i + 1, bc := bc', mempool := mp',
                       new_block_hashes := s.new_block_hashes ++ [block.hash C] }
        | (.err true, bc') =>
          blocksRun C fuel
            { s with i := s.i + 1, bc := bc',
                     orphan_buffer := obInsert s.orphan_buffer block.get_parent block,
                     requests := s.requests ++ [block.hash C] }
        | (.err false, bc') =>
          blocksRun C fuel { s with i := s.i + 1, bc := bc' }
    else some s

/-! ### The miner's transaction selection (`miner/mod.rs`) -/

/-- `miner/mod.rs` line 50. -/
def BLOCK_SIZE_LIMIT : Nat := 30

/-- The mempool iteration of `Context::miner_loop` (lines 181-204): walk the
mempool entries, break once `BLOCK_SIZE_LIMIT` transactions are accepted,
accept an entry iff its nonce matches `parent state nonce + 1`, its value is
covered by the parent-state balance, and no previously accepted transaction
shares its sender; schedule every iterated entry for removal.  The indexing
`parent_state.map[&sender_address]` panics when the sender is absent, which
the embedding models as `none`. -/
def minerSelectLoop (C : Crypto) (parent_state : State) :
    List SignedTransaction → List SignedTransaction → List Nat →
    Option (List SignedTransaction × List Nat)
  | [], transactions, removal_hashes => some (transactions, removal_hashes)
  | txn :: rest, transactions, removal_hashes =>
    if transactions.length = BLOCK_SIZE_LIMIT then some (transactions, removal_hashes)
    else
      match alookup parent_state.map (C.addrOfPk txn.public_key) with
      | none => none
      | some sender_info =>
        -- the three flags `is_nonce_valid`, `is_balance_sufficient`,
        -- `is_sender_unique` of the source, conjoined
        minerSelectLoop C parent_state rest
          (if txn.transaction.account_nonce == sender_info.1 + 1 &&
              decide (txn.transaction.value ≤ sender_info.2) &&
              !(transactions.any
                (fun x => C.addrOfPk x.public_key == C.addrOfPk txn.public_key))
           then transactions ++ [txn] else transactions)
          (removal_hashes ++ [C.hashTx txn])

/-- The whole selection step of a mining attempt: run the loop over the
mempool values, then apply the scheduled removals to the mempool
(lines 181-209). -/
def minerSelect (C : Crypto) (parent_state : State) (mempool : Mempool) :
    Option (List SignedTransaction × Mempool) :=
  match minerSelectLoop C parent_state (mempool.map.map Prod.snd) [] [] with
  | none => none
  | some (transactions, removal_hashes) =>
    some (transactions, ⟨removal_hashes.foldl (fun m h => aremove m h) mempool.map⟩)

/-- Accepted transactions are valid against the parent state. -/
def AcceptedOk (C : Crypto) (parent_state : State)
    (txs : List SignedTransaction) : Prop :=
  ∀ t ∈ txs, ∃ si, alookup parent_state.map (C.addrOfPk t.public_key) = some si ∧
    t.transaction.account_nonce = si.1 + 1 ∧ t.transaction.value ≤ si.2

/-! ### Mempool admission paths (worker `Transactions` arm, generator relay) -/

/-- The invariant of the mempool: every stored transaction passes the
signature check. -/
def MempoolSigValid (C : Crypto) (mp : Mempool) : Prop :=
  ∀ k t, alookup mp.map k = some t →
    C.sigVerify t.transaction t.public_key t.signature = true

/-- The `Message::Transactions` arm of `Worker::worker_loop`
(`network/worker.rs` lines 231-249): admit a transaction iff its hash is not
yet in the mempool and its signature verifies, collecting admitted hashes. -/
def handleTransactions (C : Crypto) (mp : Mempool)
    (ts : List SignedTransaction) : Mempool × List Nat :=
  ts.foldl
    (fun acc txn =>
      if acontains acc.1.map (C.hashTx txn) then acc
      else if C.sigVerify txn.transaction txn.public_key txn.signature then
        (⟨ainsert acc.1.map (C.hashTx txn) txn⟩, acc.2 ++ [C.hashTx txn])
      else acc)
    (mp, [])

/-- The relay of `TransactionGenerator::generate_transactions`
(`generator/generator.rs` lines 49-65): insert a received transaction into
the mempool unconditionally (no signature gate on this path). -/
def relayInsert (C : Crypto) (mp : Mempool) (txn : SignedTransaction) : Mempool :=
  ⟨ainsert mp.map (C.hashTx txn) txn⟩

/-- One tick of `Context::generator_loop` (`generator/mod.rs` lines 144-211),
the only producer feeding the relay.  The random draws (sender seed, receiver
seed after the re-draw loop, value) are taken as arguments; `none` models
both the skip branches (zero balance, `max_value ≤ 1`) and the panic when the
sender is absent from the tip state.  A produced transaction carries
`nonce = sender nonce + 1` and is signed with the sender's key. -/
def genTick (C : Crypto) (parent_state : State)
    (sender_seed receiver_seed value : Nat) : Option SignedTransaction :=
  match alookup parent_state.map
      (C.addrOfPk (C.pubOfKey (C.keyOfSeed sender_seed))) with
  | none => none
  | some sender_info =>
    if sender_info.2 = 0 then none
    else if sender_info.2 / 2 ≤ 1 then none
    else
      let t : Transaction :=
        { account_nonce := sender_info.1 + 1,
          receiver := C.addrOfPk (C.pubOfKey (C.keyOfSeed receiver_seed)),
          value := value }
      some { transaction := t,
             signature := C.sign t (C.keyOfSeed sender_seed),
             public_key := C.pubOfKey (C.keyOfSeed sender_seed) }

/-! ### The Merkle tree (`types/merkle.rs`)

The tree is generic over a `Hashable` leaf type; the SHA-256 combiner of two
child hashes and the leaf hash live in the external crypto layer, so the
embedding takes them as parameters `combine` and `itemHash`.  The flat
`nodes` array of `Option<H256>` is a `List (Option Nat)`; `H256::default()`
(the all-zero hash) is `0`.  The `f32` detour of the source
(`(x as f32).log2() as i32`, `(x as f32 / 2.0) as usize`) is exact for the
powers of two it is applied to and is modelled by `Nat.log`/division. -/

/-- Rust `usize::next_power_of_two` (`0` maps to `1`). -/
def npow2 (n : Nat) : Nat := 2 ^ Nat.clog 2 n

/-- Read a slot of the flat node array (`nodes[i]`, an `Option<H256>`). -/
def nget (ns : List (Option Nat)) (i : Nat) : Option Nat := ns.getD i none

/-- The leaf-filling loop of `MerkleTree::new` (lines 35-37):
`for (i, item) in data.iter().enumerate() { nodes[fli + i] = Some(item.hash()) }`,
with the running write position folded into `fli`. -/
def fillLeaves {α : Type} (itemHash : α → Nat) :
    Nat → List α → List (Option Nat) → List (Option Nat)
  | _, [], ns => ns
  | fli, x :: rest, ns =>
    fillLeaves itemHash (fli + 1) rest (ns.set fli (some (itemHash x)))

/-- The inner loop of a level of `MerkleTree::new` (lines 50-62): write the
combined child hashes at `cnt` consecutive positions starting at `p`
(children read via `unwrap_or_default()`, i.e. `.getD 0`). -/
def buildRow (combine : Nat → Nat → Nat) :
    Nat → Nat → List (Option Nat) → List (Option Nat)
  | _, 0, ns => ns
  | p, cnt + 1, ns =>
    buildRow combine (p + 1) cnt
      (ns.set p (some (combine ((nget ns (2 * p + 1)).getD 0)
        ((nget ns (2 * p + 2)).getD 0))))

/-- One iteration of the level loop of `MerkleTree::new` (lines 47-72):
build the row of level `l`, duplicate its last element when the row is odd
and `l > 0`, and halve the count. -/
def buildStep (combine : Nat → Nat → Nat) (l : Nat) (ns : List (Option Nat))
    (cnt : Nat) : List (Option Nat) × Nat :=
  let fi := 2 ^ l - 1
  let ns1 := buildRow combine fi cnt ns
  if cnt % 2 = 1 ∧ 0 < l then
    (ns1.set (fi + cnt) (nget ns1 (fi + cnt - 1)), (cnt + 1) / 2)
  else (ns1, cnt / 2)

/-- `for level in (0..max_level).rev()`: process levels `lv - 1` down to
`0`. -/
def buildLevels (combine : Nat → Nat → Nat) :
    Nat → List (Option Nat) → Nat → List (Option Nat)
  | 0, ns, _ => ns
  | lv + 1, ns, cnt =>
    buildLevels combine lv (buildStep combine lv ns cnt).1 (buildStep combine lv ns cnt).2

/-- `types/merkle.rs`: the `MerkleTree` struct. -/
structure MerkleTree where
  root : Option Nat
  nodes : List (Option Nat)
  leaf_count : Nat
  deriving Repr

/-- The `leaf_count` after the odd-row duplication of `MerkleTree::new`
(lines 40-43): incremented when the leaf row is odd and the tree has more
than one level (`max_level = log2(npow2 n)`). -/
def merkleLeafCount (n : Nat) : Nat :=
  if n % 2 = 1 ∧ 0 < Nat.log 2 (npow2 n) then n + 1 else n

/-- The node array of `MerkleTree::new` after the leaves are written
(lines 29-43): `2 * npow2(n) - 1` slots of `None`, the hashed items at
`[first_leaf_index, first_leaf_index + n)`, and the duplicated last leaf when
the row is odd. -/
def merkleBase {α : Type} (itemHash : α → Nat) (data : List α) :
    List (Option Nat) :=
  let n := data.length
  let first_leaf_index := 2 ^ Nat.log 2 (npow2 n) - 1
  let nodes1 :=
    fillLeaves itemHash first_leaf_index data
      (List.replicate (2 * npow2 n - 1) none)
  if n % 2 = 1 ∧ 0 < Nat.log 2 (npow2 n) then
    nodes1.set (first_leaf_index + n) (nget nodes1 (first_leaf_index + n - 1))
  else nodes1

/-- The finished node array of `MerkleTree::new`: the level loop run over the
leaf row (lines 45-72). -/
def merkleNodes {α : Type} (combine : Nat → Nat → Nat) (itemHash : α → Nat)
    (data : List α) : List (Option Nat) :=
  buildLevels combine (Nat.log 2 (npow2 data.length)) (merkleBase itemHash data)
    (merkleLeafCount data.length / 2)

/-- `MerkleTree::new` (lines 15-79). -/
def MerkleTree.new {α : Type} (combine : Nat → Nat → Nat) (itemHash : α → Nat)
    (data : List α) : MerkleTree :=
  if data.isEmpty then { root := some 0, nodes := [], leaf_count := 0 }
  else
    { root := nget (merkleNodes combine itemHash data) 0,
      nodes := merkleNodes combine itemHash data,
      leaf_count := merkleLeafCount data.length }

/-- The proof-collection walk of `MerkleTree::proof` (lines 98-113): at each
step push the sibling hash (`none`, i.e. a panic of the source's `unwrap()`,
never happens on valid indices) and move to the parent. -/
def proofWalk (ns : List (Option Nat)) : Nat → Nat → Option (List Nat)
  | 0, _ => some []
  | k + 1, current_index =>
    match nget ns (if current_index % 2 = 0 then current_index - 1
                   else current_index + 1) with
    | none => none
    | some sib =>
      match proofWalk ns k
          ((current_index - (if current_index % 2 = 0 then 2 else 1)) / 2) with
      | none => none
      | some rest => some (sib :: rest)

/-- `MerkleTree::proof` (lines 87-116).  The number of walk steps is
`log2(npow2(nodes.len())) - 1` computed in `i32` (negative for a single-node
tree, giving zero iterations, modelled by truncated subtraction); the start
position `npow2(nodes.len())/2 - 1 + index` underflows in the same case, but
is then never read. -/
def MerkleTree.proof (t : MerkleTree) (index : Nat) : Option (List Nat) :=
  if t.leaf_count ≤ index then some []
  else
    proofWalk t.nodes (Nat.log 2 (npow2 t.nodes.length) - 1)
      (npow2 t.nodes.length / 2 - 1 + index)

/-- `verify` (lines 121-159): fold the proof upwards from
`leaf_size.next_power_of_two() - 1 + index`, combining on the side dictated
by the parity of the position, and compare with the root.  An index at or
beyond `leaf_size` is rejected up front. -/
def verify (combine : Nat → Nat → Nat) (root datum : Nat) (proof : List Nat)
    (index leaf_size : Nat) : Bool :=
  if leaf_size ≤ index then false
  else
    (proof.foldl
      (fun acc sibling_hash =>
        if acc.1 % 2 = 0 then ((acc.1 - 2) / 2, combine sibling_hash acc.2)
        else ((acc.1 - 1) / 2, combine acc.2 sibling_hash))
      (npow2 leaf_size - 1 + index, datum)).2 == root

/-- The number of filled slots of the node array at height `h` above the
leaves (level `L - h`), for `n` leaves: the leaf row padded to even width,
then halved and re-padded per level, with no padding at the root. -/
def lvlFill (n L : Nat) : Nat → Nat
  | 0 => if n % 2 = 1 ∧ 0 < L then n + 1 else n
  | h + 1 =>
    if lvlFill n L h / 2 % 2 = 1 ∧ 0 < L - (h + 1) then lvlFill n L h / 2 + 1
    else lvlFill n L h / 2

/-! ### Lemmas about the association-list operations -/

theorem alookup_filter_ne {β : Type} (m : List (Nat × β)) {k k' : Nat} (h : k ≠ k') :
    alookup (m.filter (fun p => p.1 != k)) k' = alookup m k' := by
  induction m with
  | nil => rfl
  | cons p rest ih =>
    by_cases hp : p.1 = k
    · have hpk' : ¬ p.1 = k' := by rw [hp]; exact h
      rw [List.filter_cons_of_neg (by simp [hp]), ih]
      simp [alookup, hpk']
    · rw [List.filter_cons_of_pos (by simp [hp])]
      by_cases hk' : p.1 = k'
      · simp [alookup, hk']
      · simp [alookup, hk', ih]

theorem alookup_filter_self {β : Type} (m : List (Nat × β)) (k : Nat) :
    alookup (m.filter (fun p => p.1 != k)) k = none := by
  induction m with
  | nil => rfl
  | cons p rest ih =>
    by_cases hp : p.1 = k
    · rw [List.filter_cons_of_neg (by simp [hp])]; exact ih
    · rw [List.filter_cons_of_pos (by simp [hp])]
      simp [alookup, hp, ih]

theorem alookup_ainsert {β : Type} (m : List (Nat × β)) (k k' : Nat) (v : β) :
    alookup (ainsert m k v) k' = if k = k' then some v else alookup m k' := by
  by_cases h : k = k'
  · simp [ainsert, alookup, h]
  · simp only [ainsert, alookup, if_neg h]
    exact alookup_filter_ne m h

theorem alookup_aremove {β : Type} (m : List (Nat × β)) (k k' : Nat) :
    alookup (aremove m k) k' = if k = k' then none else alookup m k' := by
  by_cases h : k = k'
  · subst h; simp [aremove, alookup_filter_self]
  · simp only [aremove, if_neg h]
    exact alookup_filter_ne m h

/-! ### Claim C1: classification of `insert` results -/

theorem txnChecksOk_iff (C : Crypto) (st : State) (t : SignedTransaction) :
    txnChecksOk C st t = true ↔
      (C.sigVerify t.transaction t.public_key t.signature = true ∧
       ∃ si, alookup st.map (C.addrOfPk t.public_key) = some si ∧
             t.transaction.account_nonce = si.1 + 1 ∧
             t.transaction.value ≤ si.2) := by
  unfold txnChecksOk
  cases halk : alookup st.map (C.addrOfPk t.public_key) with
  | none => simp [halk]
  | some si =>
    simp only [halk, Bool.and_eq_true, beq_iff_eq, decide_eq_true_eq,
      Option.some.injEq]
    constructor
    · rintro ⟨hs, h1, h2⟩
      exact ⟨hs, si, rfl, h1.symm, h2⟩
    · rintro ⟨hs, si', hsi, h1, h2⟩
      cases hsi
      exact ⟨hs, h1.symm, h2⟩

theorem insert_eq_missing {C : Crypto} {bc : Blockchain} {b : Block}
    (hpar : alookup bc.map b.get_parent = none) :
    bc.insert C b = (.err true, bc) := by
  simp [Blockchain.insert, hpar]

theorem insert_eq_dup {C : Crypto} {bc : Blockchain} {b : Block} {p : BlockNode}
    (hpar : alookup bc.map b.get_parent = some p)
    (hdup : acontains bc.map (b.hash C) = true) :
    bc.insert C b = (.err false, bc) := by
  simp [Blockchain.insert, hpar, hdup]

theorem insert_eq_invalid {C : Crypto} {bc : Blockchain} {b : Block} {p : BlockNode}
    (hpar : alookup bc.map b.get_parent = some p)
    (hdup : acontains bc.map (b.hash C) = false)
    (hval : b.content.transactions.all (txnChecksOk C p.state) = false) :
    bc.insert C b = (.err false, bc) := by
  simp [Blockchain.insert, hpar, hdup, hval]

theorem insert_eq_ok {C : Crypto} {bc : Blockchain} {b : Block} {p : BlockNode}
    (hpar : alookup bc.map b.get_parent = some p)
    (hdup : acontains bc.map (b.hash C) = false)
    (hval : b.content.transactions.all (txnChecksOk C p.state) = true) :
    bc.insert C b =
      (.ok,
        ⟨ainsert bc.map (b.hash C)
            ⟨b, p.height + 1, applyBlockTxns C p.state b.content.transactions⟩,
          match
            alookup
              (ainsert bc.map (b.hash C)
                ⟨b, p.height + 1, applyBlockTxns C p.state b.content.transactions⟩)
              bc.tip with
          | some tip_node =>
            if p.height + 1 > tip_node.height then b.hash C else bc.tip
          | none => bc.tip⟩) := by
  simp [Blockchain.insert, hpar, hdup, hval]

/-- **C1.** `insert(b)` returns `MissingParent` exactly when `b`'s parent hash
is absent from the block map; with the parent present it returns `Invalid`
exactly when `b`'s hash is already present or some transaction of `b`
(checked against the unchanged parent state) fails the signature check,
sender presence, the nonce relation `account_nonce = sender nonce + 1` or the
balance bound; and when none of these conditions fails it returns `Ok` and
stores the block at height `parent.height + 1`. -/
theorem insert_result_classification (C : Crypto) (bc : Blockchain) (b : Block) :
    ((bc.insert C b).1 = .err true ↔ alookup bc.map b.get_parent = none)
    ∧ (∀ p, alookup bc.map b.get_parent = some p →
        ((bc.insert C b).1 = .err false ↔
          (acontains bc.map (b.hash C) = true ∨
           ∃ t ∈ b.content.transactions,
             ¬ (C.sigVerify t.transaction t.public_key t.signature = true ∧
                ∃ si, alookup p.state.map (C.addrOfPk t.public_key) = some si ∧
                      t.transaction.account_nonce = si.1 + 1 ∧
                      t.transaction.value ≤ si.2))))
    ∧ (∀ p, alookup bc.map b.get_parent = some p →
        acontains bc.map (b.hash C) = false →
        (∀ t ∈ b.content.transactions,
           C.sigVerify t.transaction t.public_key t.signature = true ∧
           ∃ si, alookup p.state.map (C.addrOfPk t.public_key) = some si ∧
                 t.transaction.account_nonce = si.1 + 1 ∧
                 t.transaction.value ≤ si.2) →
        (bc.insert C b).1 = .ok ∧
          alookup (bc.insert C b).2.map (b.hash C) =
            some ⟨b, p.height + 1, applyBlockTxns C p.state b.content.transactions⟩) := by
  refine ⟨?_, ?_, ?_⟩
  · cases hpar : alookup bc.map b.get_parent with
    | none => simp [insert_eq_missing hpar]
    | some p =>
      cases hdup : acontains bc.map (b.hash C) with
      | true => simp [insert_eq_dup hpar hdup, hpar]
      | false =>
        cases hval : b.content.transactions.all (txnChecksOk C p.state) with
        | false => simp [insert_eq_invalid hpar hdup hval, hpar]
        | true => simp [insert_eq_ok hpar hdup hval, hpar]
  · intro p hpar
    cases hdup : acontains bc.map (b.hash C) with
    | true => simp [insert_eq_dup hpar hdup, hdup]
    | false =>
      cases hval : b.content.transactions.all (txnChecksOk C p.state) with
      | false =>
        simp only [insert_eq_invalid hpar hdup hval, hdup, Bool.false_eq_true,
          false_or, true_iff]
        have hval' := hval
        rw [Bool.eq_false_iff, ne_eq, List.all_eq_true] at hval'
        push_neg at hval'
        obtain ⟨t, ht, hbad⟩ := hval'
        refine ⟨t, ht, ?_⟩
        rw [← txnChecksOk_iff C p.state t]
        simpa using hbad
      | true =>
        simp only [insert_eq_ok hpar hdup hval, hdup, Bool.false_eq_true,
          false_or]
        rw [List.all_eq_true] at hval
        constructor
        · intro h; cases h
        · rintro ⟨t, ht, hbad⟩
          exact absurd ((txnChecksOk_iff C p.state t).mp (hval t ht)) hbad
  · intro p hpar hdup hall
    have hval : b.content.transactions.all (txnChecksOk C p.state) = true := by
      rw [List.all_eq_true]
      intro t ht
      exact (txnChecksOk_iff C p.state t).mpr (hall t ht)
    rw [insert_eq_ok hpar hdup hval]
    exact ⟨rfl, by simp [alookup_ainsert]⟩

/-! ### Claim C8: failed inserts leave the blockchain unchanged -/

/-- **C8.** `insert` is atomic on failure: whenever it returns
`MissingParent` or `Invalid`, the block map and the tip are exactly as they
were before the call. -/
theorem insert_atomic_on_failure (C : Crypto) (bc : Blockchain) (b : Block)
    (e : Bool) (h : (bc.insert C b).1 = .err e) : (bc.insert C b).2 = bc := by
  cases hpar : alookup bc.map b.get_parent with
  | none => rw [insert_eq_missing hpar]
  | some p =>
    cases hdup : acontains bc.map (b.hash C) with
    | true => rw [insert_eq_dup hpar hdup]
    | false =>
      cases hval : b.content.transactions.all (txnChecksOk C p.state) with
      | false => rw [insert_eq_invalid hpar hdup hval]
      | true => rw [insert_eq_ok hpar hdup hval] at h; cases h

/-! ### Claim C2: the tip designates a node of maximal height -/

theorem acontains_false_alookup {β : Type} {m : List (Nat × β)} {k : Nat}
    (h : acontains m k = false) : alookup m k = none := by
  rw [acontains] at h
  cases halk : alookup m k with
  | none => rfl
  | some v => rw [halk] at h; cases h

/-- In every reachable blockchain, the tip is bound in the block map and its
node has maximal height.  Shared invariant behind C2 and C7; the `none`
branch of `insert`'s tip update is dead because of this lemma. -/
theorem reachable_tipInv (C : Crypto) (bc : Blockchain) (hr : Reachable C bc) :
    ∃ t, alookup bc.map bc.tip = some t ∧
      ∀ k n, alookup bc.map k = some n → n.height ≤ t.height := by
  induction hr with
  | base =>
    refine ⟨⟨genesisBlock, 0, genesisState C⟩, by simp [Blockchain.new, alookup], ?_⟩
    intro k n hk
    by_cases hgh : genesisBlock.hash C = k
    · simp [Blockchain.new, alookup, hgh] at hk
      simp [← hk]
    · simp [Blockchain.new, alookup, hgh] at hk
  | @step bc b hprev ih =>
    obtain ⟨t, htip, hmax⟩ := ih
    cases hpar : alookup bc.map b.get_parent with
    | none => rw [insert_eq_missing hpar]; exact ⟨t, htip, hmax⟩
    | some p =>
      cases hdup : acontains bc.map (b.hash C) with
      | true => rw [insert_eq_dup hpar hdup]; exact ⟨t, htip, hmax⟩
      | false =>
        cases hval : b.content.transactions.all (txnChecksOk C p.state) with
        | false => rw [insert_eq_invalid hpar hdup hval]; exact ⟨t, htip, hmax⟩
        | true =>
          rw [insert_eq_ok hpar hdup hval]
          have hne : b.hash C ≠ bc.tip := by
            intro he
            have hnone := acontains_false_alookup hdup
            rw [he, htip] at hnone
            cases hnone
          have hlt :
              alookup
                (ainsert bc.map (b.hash C)
                  ⟨b, p.height + 1, applyBlockTxns C p.state b.content.transactions⟩)
                bc.tip = some t := by
            rw [alookup_ainsert, if_neg hne]; exact htip
          simp only [hlt]
          by_cases hgt : p.height + 1 > t.height
          · rw [if_pos hgt]
            refine ⟨⟨b, p.height + 1, applyBlockTxns C p.state b.content.transactions⟩,
              by rw [alookup_ainsert, if_pos rfl], ?_⟩
            intro k n hk
            rw [alookup_ainsert] at hk
            by_cases hkb : b.hash C = k
            · rw [if_pos hkb] at hk; cases hk; exact le_refl _
            · rw [if_neg hkb] at hk
              exact le_trans (hmax k n hk) (le_of_lt hgt)
          · rw [if_neg hgt]
            refine ⟨t, hlt, ?_⟩
            intro k n hk
            rw [alookup_ainsert] at hk
            by_cases hkb : b.hash C = k
            · rw [if_pos hkb] at hk
              cases hk
              show p.height + 1 ≤ t.height
              omega
            · exact hmax k n (by rwa [if_neg hkb] at hk)

/-- **C2.** In every reachable blockchain state the tip identifies a node of
maximal height, and the tip is updated only on strict height increase: a
successful insert of a block strictly taller than the tip makes that block's
hash the tip, a successful insert at a height at most the tip's height leaves
the tip unchanged (first-seen tie-breaking), and a failed insert leaves the
tip unchanged. -/
theorem tip_maximal_and_update (C : Crypto) (bc : Blockchain) (hr : Reachable C bc) :
    (∃ t, alookup bc.map bc.tip = some t ∧
       ∀ k n, alookup bc.map k = some n → n.height ≤ t.height)
    ∧ (∀ b p t, alookup bc.map b.get_parent = some p →
        alookup bc.map bc.tip = some t →
        (bc.insert C b).1 = .ok →
          ((p.height + 1 > t.height → (bc.insert C b).2.tip = b.hash C) ∧
           (p.height + 1 ≤ t.height → (bc.insert C b).2.tip = bc.tip)))
    ∧ (∀ b e, (bc.insert C b).1 = .err e → (bc.insert C b).2.tip = bc.tip) := by
  refine ⟨reachable_tipInv C bc hr, ?_, ?_⟩
  · intro b p t hpar htip hok
    cases hdup : acontains bc.map (b.hash C) with
    | true => rw [insert_eq_dup hpar hdup] at hok; cases hok
    | false =>
      cases hval : b.content.transactions.all (txnChecksOk C p.state) with
      | false => rw [insert_eq_invalid hpar hdup hval] at hok; cases hok
      | true =>
        rw [insert_eq_ok hpar hdup hval]
        have hne : b.hash C ≠ bc.tip := by
          intro he
          have hnone := acontains_false_alookup hdup
          rw [he, htip] at hnone
          cases hnone
        have hlt :
            alookup
              (ainsert bc.map (b.hash C)
                ⟨b, p.height + 1, applyBlockTxns C p.state b.content.transactions⟩)
              bc.tip = some t := by
          rw [alookup_ainsert, if_neg hne]; exact htip
        simp only [hlt]
        constructor
        · intro hgt; rw [if_pos hgt]
        · intro hle; rw [if_neg (by omega)]
  · intro b e he
    rw [insert_atomic_on_failure C bc b e he]

/-! ### Claim C7: `all_blocks_in_longest_chain` -/

theorem reachable_chainInv (C : Crypto) (bc : Blockchain) (hr : Reachable C bc) :
    ChainInv C bc := by
  induction hr with
  | base =>
    constructor
    · exact ⟨⟨genesisBlock, 0, genesisState C⟩, by simp [Blockchain.new, alookup], rfl⟩
    · intro k n hk
      by_cases hgh : genesisBlock.hash C = k
      · simp [Blockchain.new, alookup, hgh] at hk
        subst hgh
        constructor
        · intro _; rfl
        · intro hpos; rw [← hk] at hpos; simp at hpos
      · simp [Blockchain.new, alookup, hgh] at hk
  | @step bc b hprev ih =>
    obtain ⟨⟨g, hg, hg0⟩, hnodes⟩ := ih
    cases hpar : alookup bc.map b.get_parent with
    | none => rw [insert_eq_missing hpar]; exact ⟨⟨g, hg, hg0⟩, hnodes⟩
    | some p =>
      cases hdup : acontains bc.map (b.hash C) with
      | true => rw [insert_eq_dup hpar hdup]; exact ⟨⟨g, hg, hg0⟩, hnodes⟩
      | false =>
        cases hval : b.content.transactions.all (txnChecksOk C p.state) with
        | false => rw [insert_eq_invalid hpar hdup hval]; exact ⟨⟨g, hg, hg0⟩, hnodes⟩
        | true =>
          rw [insert_eq_ok hpar hdup hval]
          have hfresh := acontains_false_alookup hdup
          have hgh_ne : b.hash C ≠ genesisBlock.hash C := by
            intro he; rw [he, hg] at hfresh; cases hfresh
          have hpar_ne : b.hash C ≠ b.get_parent := by
            intro he; rw [he, hpar] at hfresh; cases hfresh
          constructor
          · exact ⟨g, by rw [alookup_ainsert, if_neg hgh_ne]; exact hg, hg0⟩
          · intro k n hk
            rw [alookup_ainsert] at hk
            by_cases hkb : b.hash C = k
            · rw [if_pos hkb] at hk
              cases hk
              constructor
              · intro h0; exact absurd h0 (by simp)
              · intro _
                refine ⟨p, ?_, rfl⟩
                show alookup (ainsert _ _ _) b.get_parent = some p
                rw [alookup_ainsert, if_neg hpar_ne]
                exact hpar
            · rw [if_neg hkb] at hk
              obtain ⟨h0, hpos⟩ := hnodes k n hk
              constructor
              · exact h0
              · intro hnp
                obtain ⟨pn, hpn, hpnh⟩ := hpos hnp
                have hne : b.hash C ≠ n.block.get_parent := by
                  intro he; rw [he, hpn] at hfresh; cases hfresh
                exact ⟨pn, by rw [alookup_ainsert, if_neg hne]; exact hpn, hpnh⟩

theorem getLast?_cons_of_ne_nil {α : Type} (a : α) {l : List α} (h : l ≠ []) :
    (a :: l).getLast? = l.getLast? := by
  cases l with
  | nil => exact absurd rfl h
  | cons x xs => rw [List.getLast?_cons_cons]

theorem chainWalk_spec (C : Crypto) (bc : Blockchain) (hinv : ChainInv C bc) :
    ∀ (hgt : Nat) (k : Nat) (n : BlockNode), alookup bc.map k = some n →
      n.height = hgt →
      (chainWalk bc.map hgt k).length = hgt + 1 ∧
      (chainWalk bc.map hgt k).head? = some k ∧
      (chainWalk bc.map hgt k).getLast? = some (genesisBlock.hash C) ∧
      List.Chain'
        (fun a b => ∃ m, alookup bc.map a = some m ∧ m.block.get_parent = b)
        (chainWalk bc.map hgt k) := by
  intro hgt
  induction hgt with
  | zero =>
    intro k n hk h0
    have hkg : k = genesisBlock.hash C :=
      ((hinv.2 k n hk).1) h0
    subst hkg
    simp [chainWalk]
  | succ f ih =>
    intro k n hk hh
    obtain ⟨pn, hpn, hpnh⟩ := (hinv.2 k n hk).2 (by omega)
    have hpn_height : pn.height = f := by omega
    obtain ⟨ihlen, ihhead, ihlast, ihchain⟩ :=
      ih n.block.get_parent pn hpn hpn_height
    have hne : chainWalk bc.map f n.block.get_parent ≠ [] := by
      intro he; rw [he] at ihlen; simp at ihlen
    have hwalk : chainWalk bc.map (f + 1) k =
        k :: chainWalk bc.map f n.block.get_parent := by
      simp [chainWalk, hk, show n.height ≠ 0 by omega]
    rw [hwalk]
    refine ⟨by simp [ihlen], by simp, ?_, ?_⟩
    · rw [getLast?_cons_of_ne_nil k hne]
      exact ihlast
    · rw [List.chain'_cons']
      refine ⟨?_, ihchain⟩
      intro b hb
      rw [ihhead] at hb
      cases hb
      exact ⟨n, hk, rfl⟩

/-- **C7.** In every reachable blockchain state,
`all_blocks_in_longest_chain()` starts at the genesis hash, ends at the tip,
has length `height(tip) + 1`, and each element after the first is bound to a
block whose parent field is the preceding element. -/
theorem all_blocks_in_longest_chain_spec (C : Crypto) (bc : Blockchain)
    (hr : Reachable C bc) :
    ∃ t, alookup bc.map bc.tip = some t ∧
      bc.all_blocks_in_longest_chain.head? = some (genesisBlock.hash C) ∧
      bc.all_blocks_in_longest_chain.getLast? = some bc.tip ∧
      bc.all_blocks_in_longest_chain.length = t.height + 1 ∧
      List.Chain'
        (fun a b => ∃ n, alookup bc.map b = some n ∧ n.block.get_parent = a)
        bc.all_blocks_in_longest_chain := by
  obtain ⟨t, htip, -⟩ := reachable_tipInv C bc hr
  obtain ⟨hlen, hhead, hlast, hchain⟩ :=
    chainWalk_spec C bc (reachable_chainInv C bc hr) t.height bc.tip t htip rfl
  refine ⟨t, htip, ?_, ?_, ?_, ?_⟩
  · simp only [Blockchain.all_blocks_in_longest_chain, htip]
    rw [List.head?_reverse]
    exact hlast
  · simp only [Blockchain.all_blocks_in_longest_chain, htip]
    rw [List.getLast?_reverse]
    exact hhead
  · simp only [Blockchain.all_blocks_in_longest_chain, htip]
    rw [List.length_reverse]
    exact hlen
  · simp only [Blockchain.all_blocks_in_longest_chain, htip]
    rw [List.chain'_reverse]
    exact hchain

/-! ### Claim C4: the stored state of a successful insert -/

theorem applyTxn_absent (C : Crypto) (pstate acc : State) (t : SignedTransaction)
    (a : Nat) (ha : alookup pstate.map a = none)
    (hacc : alookup acc.map a = none) :
    alookup (applyTxn C pstate acc t).map a = none := by
  cases hs : alookup pstate.map (C.addrOfPk t.public_key) with
  | none =>
    cases hrcv : alookup pstate.map t.transaction.receiver with
    | none => simp only [applyTxn, hs, hrcv]; exact hacc
    | some ri =>
      have hner : t.transaction.receiver ≠ a := by
        intro he; rw [he, ha] at hrcv; cases hrcv
      simp only [applyTxn, hs, hrcv]
      rw [alookup_ainsert, if_neg hner]
      exact hacc
  | some si =>
    have hnes : C.addrOfPk t.public_key ≠ a := by
      intro he; rw [he, ha] at hs; cases hs
    cases hrcv : alookup pstate.map t.transaction.receiver with
    | none =>
      simp only [applyTxn, hs, hrcv]
      rw [alookup_ainsert, if_neg hnes]
      exact hacc
    | some ri =>
      have hner : t.transaction.receiver ≠ a := by
        intro he; rw [he, ha] at hrcv; cases hrcv
      simp only [applyTxn, hs, hrcv]
      rw [alookup_ainsert, if_neg hner, alookup_ainsert, if_neg hnes]
      exact hacc

theorem applyBlockTxns_absent (C : Crypto) (pstate : State)
    (txns : List SignedTransaction) (a : Nat)
    (ha : alookup pstate.map a = none) :
    alookup (applyBlockTxns C pstate txns).map a = none := by
  suffices h : ∀ acc : State, alookup acc.map a = none →
      alookup (txns.foldl (applyTxn C pstate) acc).map a = none from
    h pstate ha
  induction txns with
  | nil => intro acc hacc; exact hacc
  | cons t rest ih =>
    intro acc hacc
    exact ih (applyTxn C pstate acc t) (applyTxn_absent C pstate acc t a ha hacc)

/-- **C4 (amended).** When `insert(b)` succeeds, the stored state is obtained
from a clone of the parent state by, for each transaction in order,
re-binding a parent-present sender to `(parent nonce + 1, parent balance −
value)` and a parent-present receiver to `(parent nonce, parent balance +
value)`, both computed from the unchanged parent snapshot; an address absent
from the parent state — in particular an unknown receiver — is never
inserted, so the transferred value of such a transaction is not credited
anywhere. -/
theorem insert_stored_state (C : Crypto) (bc : Blockchain) (b : Block)
    (hok : (bc.insert C b).1 = .ok) (p : BlockNode)
    (hpar : alookup bc.map b.get_parent = some p) :
    (bc.insert C b).2.get_state (b.hash C) =
      some (applyBlockTxns C p.state b.content.transactions)
    ∧ ∀ a, alookup p.state.map a = none →
        alookup (applyBlockTxns C p.state b.content.transactions).map a = none := by
  constructor
  · cases hdup : acontains bc.map (b.hash C) with
    | true => rw [insert_eq_dup hpar hdup] at hok; cases hok
    | false =>
      cases hval : b.content.transactions.all (txnChecksOk C p.state) with
      | false => rw [insert_eq_invalid hpar hdup hval] at hok; cases hok
      | true =>
        rw [insert_eq_ok hpar hdup hval]
        simp [Blockchain.get_state, alookup_ainsert]
  · intro a ha
    exact applyBlockTxns_absent C p.state b.content.transactions a ha

/-! ### Claim C3: the `Blocks(bs)` handler on a discarded block -/

/-- **C3 (code bug).** The claim says the `Blocks(bs)` handler terminates and
a PoW-failing or already-present block is discarded while processing
continues.  In the code the two `continue` statements skip the `i += 1` at
the bottom of the `while` loop, so on such a block the loop re-examines the
same index with an unchanged state forever: for every fuel bound the run is
still unfinished.  This contradicts the source's own `// Skip if ...`
comments. -/
theorem blocks_handler_diverges (C : Crypto) (bc : Blockchain) (mp : Mempool)
    (b : Block)
    (hbad : b.get_difficulty < b.hash C ∨
      (¬ b.get_difficulty < b.hash C ∧ acontains bc.map (b.hash C) = true)) :
    ∀ fuel, blocksRun C fuel ⟨[b], 0, bc, mp, [], [], []⟩ = none := by
  intro fuel
  induction fuel with
  | zero => rfl
  | succ f ih =>
    show blocksRun C (f + 1) ⟨[b], 0, bc, mp, [], [], []⟩ = none
    rw [blocksRun]
    rcases hbad with hpow | ⟨hpow, hdup⟩
    · rw [dif_pos (by simp)]
      simp only [List.get]
      rw [if_pos hpow]
      exact ih
    · rw [dif_pos (by simp)]
      simp only [List.get]
      rw [if_neg hpow, if_pos hdup]
      exact ih

/-! ### Claims C6 and C10: the miner's transaction selection -/

/-- Main induction behind C6 and C10: with every entry's sender present in
the parent state, the selection loop completes, keeps at most
`BLOCK_SIZE_LIMIT` accepted transactions with pairwise-distinct senders, all
valid against the parent state, and its removal schedule is the image of an
iterated prefix of the entries. -/
theorem minerSelectLoop_spec (C : Crypto) (ps : State) :
    ∀ (entries txs : List SignedTransaction) (rem : List Nat),
      (∀ txn ∈ entries, (alookup ps.map (C.addrOfPk txn.public_key)).isSome = true) →
      txs.length ≤ BLOCK_SIZE_LIMIT →
      List.Pairwise (fun a b => C.addrOfPk a.public_key ≠ C.addrOfPk b.public_key) txs →
      AcceptedOk C ps txs →
      ∃ txs' rem', minerSelectLoop C ps entries txs rem = some (txs', rem') ∧
        txs'.length ≤ BLOCK_SIZE_LIMIT ∧
        List.Pairwise (fun a b => C.addrOfPk a.public_key ≠ C.addrOfPk b.public_key) txs' ∧
        AcceptedOk C ps txs' ∧
        ∃ k, rem' = rem ++ (entries.take k).map C.hashTx := by
  intro entries
  induction entries with
  | nil =>
    intro txs rem hpresent hlen hpw hok
    exact ⟨txs, rem, rfl, hlen, hpw, hok, 0, by simp⟩
  | cons txn rest ih =>
    intro txs rem hpresent hlen hpw hok
    by_cases hfull : txs.length = BLOCK_SIZE_LIMIT
    · exact ⟨txs, rem, by rw [minerSelectLoop, if_pos hfull], hlen, hpw, hok, 0, by simp⟩
    · have hpres_txn := hpresent txn (by simp)
      cases hsi : alookup ps.map (C.addrOfPk txn.public_key) with
      | none => rw [hsi] at hpres_txn; cases hpres_txn
      | some si =>
        have hrest : ∀ t ∈ rest, (alookup ps.map (C.addrOfPk t.public_key)).isSome = true :=
          fun t ht => hpresent t (by simp [ht])
        cases hacc :
            txn.transaction.account_nonce == si.1 + 1 &&
            decide (txn.transaction.value ≤ si.2) &&
            !(txs.any (fun x => C.addrOfPk x.public_key == C.addrOfPk txn.public_key)) with
        | true =>
          have hfacts := hacc
          simp only [Bool.and_eq_true, beq_iff_eq, decide_eq_true_eq,
            Bool.not_eq_true', List.any_eq_false, beq_eq_false_iff_ne, ne_eq] at hfacts
          have hlen' : (txs ++ [txn]).length ≤ BLOCK_SIZE_LIMIT := by
            simp only [List.length_append, List.length_singleton]
            omega
          have hpw' :
              List.Pairwise (fun a b => C.addrOfPk a.public_key ≠ C.addrOfPk b.public_key)
                (txs ++ [txn]) := by
            rw [List.pairwise_append]
            refine ⟨hpw, List.pairwise_singleton _ _, ?_⟩
            intro a ha b hb
            simp only [List.mem_singleton] at hb
            subst hb
            exact hfacts.2 a ha
          have hok' : AcceptedOk C ps (txs ++ [txn]) := by
            intro t ht
            rw [List.mem_append] at ht
            rcases ht with ht | ht
            · exact hok t ht
            · simp only [List.mem_singleton] at ht
              subst ht
              exact ⟨si, hsi, hfacts.1.1, hfacts.1.2⟩
          obtain ⟨txs', rem', heq, h1, h2, h3, k, hk⟩ :=
            ih (txs ++ [txn]) (rem ++ [C.hashTx txn]) hrest hlen' hpw' hok'
          refine ⟨txs', rem', ?_, h1, h2, h3, k + 1, ?_⟩
          · rw [minerSelectLoop, if_neg hfull]
            simp only [hsi, hacc, if_true]
            exact heq
          · rw [hk]
            simp [List.take_cons]
        | false =>
          obtain ⟨txs', rem', heq, h1, h2, h3, k, hk⟩ :=
            ih txs (rem ++ [C.hashTx txn]) hrest hlen hpw hok
          refine ⟨txs', rem', ?_, h1, h2, h3, k + 1, ?_⟩
          · rw [minerSelectLoop, if_neg hfull]
            simp only [hsi, hacc, if_false]
            exact heq
          · rw [hk]
            simp [List.take_cons]

theorem foldl_aremove_preserve_none {β : Type} (hs : List Nat)
    (m : List (Nat × β)) (h : Nat) (hnone : alookup m h = none) :
    alookup (hs.foldl (fun m k => aremove m k) m) h = none := by
  induction hs generalizing m with
  | nil => exact hnone
  | cons x xs ih =>
    apply ih
    rw [alookup_aremove]
    by_cases hx : x = h
    · rw [if_pos hx]
    · rw [if_neg hx]; exact hnone

theorem foldl_aremove_mem {β : Type} (hs : List Nat) (m : List (Nat × β))
    (h : Nat) (hmem : h ∈ hs) :
    alookup (hs.foldl (fun m k => aremove m k) m) h = none := by
  induction hs generalizing m with
  | nil => cases hmem
  | cons x xs ih =>
    rw [List.foldl_cons]
    rcases List.mem_cons.mp hmem with hx | hx
    · subst hx
      apply foldl_aremove_preserve_none
      rw [alookup_aremove, if_pos rfl]
    · exact ih _ hx

/-- **C6.** For a mining attempt whose snapshotted parent state contains
every mempool entry's sender: the selection completes, the assembled list has
at most `BLOCK_SIZE_LIMIT = 30` transactions with pairwise-distinct sender
addresses, each satisfying `account_nonce = parent nonce + 1` and
`value ≤ parent balance`, and the removal schedule is exactly the iterated
prefix of the mempool entries, every one of which is absent from the mempool
afterwards whether or not it was accepted. -/
theorem miner_selection_spec (C : Crypto) (ps : State) (mp : Mempool)
    (hpresent : ∀ txn ∈ mp.map.map Prod.snd,
      (alookup ps.map (C.addrOfPk txn.public_key)).isSome = true) :
    ∃ txs rem,
      minerSelectLoop C ps (mp.map.map Prod.snd) [] [] = some (txs, rem) ∧
      minerSelect C ps mp =
        some (txs, ⟨rem.foldl (fun m h => aremove m h) mp.map⟩) ∧
      txs.length ≤ BLOCK_SIZE_LIMIT ∧
      List.Pairwise (fun a b => C.addrOfPk a.public_key ≠ C.addrOfPk b.public_key) txs ∧
      AcceptedOk C ps txs ∧
      (∃ k, rem = ((mp.map.map Prod.snd).take k).map C.hashTx) ∧
      ∀ h ∈ rem, alookup (rem.foldl (fun m k => aremove m k) mp.map) h = none := by
  obtain ⟨txs, rem, heq, h1, h2, h3, k, hk⟩ :=
    minerSelectLoop_spec C ps (mp.map.map Prod.snd) [] [] hpresent
      (by simp [BLOCK_SIZE_LIMIT]) (List.Pairwise.nil) (by intro t ht; cases ht)
  refine ⟨txs, rem, heq, ?_, h1, h2, h3, ⟨k, by simpa using hk⟩, ?_⟩
  · rw [minerSelect, heq]
  · intro h hmem
    exact foldl_aremove_mem rem mp.map h hmem

/-- **C10.** The miner's transaction-selection step is panic-free exactly
under the precondition that every mempool entry's sender appears in the
snapshotted tip state: with all senders present the assembly loop completes
(`isSome`), while for a concrete mempool holding a signature-valid
transaction whose sender (address 999) is absent from the tip state, the
unguarded indexing `parent_state.map[&sender_address]` panics (modelled as
`none`). -/
theorem miner_selection_panic_characterization :
    (∀ (C : Crypto) (ps : State) (mp : Mempool),
      (∀ txn ∈ mp.map.map Prod.snd,
        (alookup ps.map (C.addrOfPk txn.public_key)).isSome = true) →
      (minerSelect C ps mp).isSome = true)
    ∧ testCrypto.sigVerify
        { account_nonce := 1, receiver := 0, value := 1 } 999 0 = true
    ∧ alookup (genesisState testCrypto).map (testCrypto.addrOfPk 999) = none
    ∧ minerSelect testCrypto (genesisState testCrypto)
        ⟨[(12, { transaction := { account_nonce := 1, receiver := 0, value := 1 },
                 signature := 0, public_key := 999 })]⟩ = none := by
  refine ⟨?_, by decide, by decide, by decide⟩
  intro C ps mp hpresent
  obtain ⟨txs, rem, heq, -, -, -, -, -⟩ :=
    minerSelectLoop_spec C ps (mp.map.map Prod.snd) [] [] hpresent
      (by simp [BLOCK_SIZE_LIMIT]) (List.Pairwise.nil) (by intro t ht; cases ht)
  rw [minerSelect, heq]
  rfl

/-! ### Claim C9: mempool entries are signature-valid -/

/-- **C9.** Every entry of the mempool is signature-valid, on both admission
paths: the gossip worker's `Transactions` handler preserves the invariant
because it checks `verify` before inserting, and the generator relay — which
inserts without a check — preserves it because every transaction it can
receive was produced and signed by the generator tick, given the Ed25519
sign/verify round-trip contract of the (external) crypto layer. -/
theorem mempool_signature_invariant :
    (∀ (C : Crypto) (mp : Mempool) (ts : List SignedTransaction),
      MempoolSigValid C mp → MempoolSigValid C (handleTransactions C mp ts).1)
    ∧ (∀ (C : Crypto) (ps : State) (mp : Mempool) (ss rs v : Nat)
        (txn : SignedTransaction),
      (∀ (t : Transaction) (k : Nat),
        C.sigVerify t (C.pubOfKey k) (C.sign t k) = true) →
      MempoolSigValid C mp →
      genTick C ps ss rs v = some txn →
      MempoolSigValid C (relayInsert C mp txn)) := by
  constructor
  · intro C mp ts hmp
    suffices h : ∀ (ts : List SignedTransaction) (acc : Mempool × List Nat),
        MempoolSigValid C acc.1 →
        MempoolSigValid C (ts.foldl
          (fun acc txn =>
            if acontains acc.1.map (C.hashTx txn) then acc
            else if C.sigVerify txn.transaction txn.public_key txn.signature then
              (⟨ainsert acc.1.map (C.hashTx txn) txn⟩, acc.2 ++ [C.hashTx txn])
            else acc)
          acc).1 from
      h ts (mp, []) hmp
    intro ts
    induction ts with
    | nil => intro acc hacc; exact hacc
    | cons txn rest ih =>
      intro acc hacc
      rw [List.foldl_cons]
      apply ih
      cases hc : acontains acc.1.map (C.hashTx txn) with
      | true => simpa [hc] using hacc
      | false =>
        cases hv : C.sigVerify txn.transaction txn.public_key txn.signature with
        | false => simpa [hc, hv] using hacc
        | true =>
          simp only [hc, hv, Bool.false_eq_true, if_false, if_true]
          intro k t hlk
          rw [alookup_ainsert] at hlk
          by_cases hk : C.hashTx txn = k
          · rw [if_pos hk] at hlk; cases hlk; exact hv
          · rw [if_neg hk] at hlk; exact hacc k t hlk
  · intro C ps mp ss rs v txn hcontract hmp hgen
    cases hsi : alookup ps.map (C.addrOfPk (C.pubOfKey (C.keyOfSeed ss))) with
    | none => simp only [genTick, hsi] at hgen; cases hgen
    | some sender_info =>
      simp only [genTick, hsi] at hgen
      by_cases h0 : sender_info.2 = 0
      · rw [if_pos h0] at hgen; cases hgen
      · rw [if_neg h0] at hgen
        by_cases h1 : sender_info.2 / 2 ≤ 1
        · rw [if_pos h1] at hgen; cases hgen
        · rw [if_neg h1] at hgen
          cases hgen
          intro k t hlk
          rw [relayInsert] at hlk
          simp only at hlk
          rw [alookup_ainsert] at hlk
          split_ifs at hlk with hk
          · cases hlk
            exact hcontract _ _
          · exact hmp k t hlk

/-! ### Claim C5: the Merkle tree round-trip -/

theorem nget_set (ns : List (Option Nat)) (p q : Nat) (v : Option Nat) :
    nget (ns.set p v) q = if p = q ∧ p < ns.length then v else nget ns q := by
  unfold nget
  simp only [List.getD_eq_getElem?_getD, List.getElem?_set]
  by_cases h : p = q
  · subst h
    by_cases hl : p < ns.length
    · simp [hl]
    · simp [hl]
      rw [List.getElem?_eq_none (by omega)]
      rfl
  · simp [h]

theorem nget_replicate (m q : Nat) :
    nget (List.replicate m (none : Option Nat)) q = none := by
  unfold nget
  simp only [List.getD_eq_getElem?_getD, List.getElem?_replicate]
  by_cases h : q < m <;> simp [h]

theorem le_npow2 (n : Nat) : n ≤ npow2 n := Nat.le_pow_clog one_lt_two n

theorem log2_npow2 (n : Nat) : Nat.log 2 (npow2 n) = Nat.clog 2 n :=
  Nat.log_pow one_lt_two _

theorem npow2_one : npow2 1 = 1 := by
  rw [npow2, Nat.clog_one_right, pow_zero]

theorem npow2_two_pow_mul {L : Nat} (hL : 1 ≤ L) :
    npow2 (2 * 2 ^ L - 1) = 2 ^ (L + 1) := by
  rw [npow2]
  congr 1
  have h1 : 1 ≤ 2 ^ L := Nat.one_le_two_pow
  have h2 : 2 ≤ 2 ^ L := by
    calc 2 = 2 ^ 1 := (pow_one 2).symm
    _ ≤ 2 ^ L := Nat.pow_le_pow_right (by omega) hL
  have hle : 2 * 2 ^ L - 1 ≤ 2 ^ (L + 1) := by rw [pow_succ]; omega
  have hgt : 2 ^ L < 2 * 2 ^ L - 1 := by omega
  have hup : Nat.clog 2 (2 * 2 ^ L - 1) ≤ L + 1 :=
    (Nat.le_pow_iff_clog_le one_lt_two).mp hle
  have hlo : L < Nat.clog 2 (2 * 2 ^ L - 1) :=
    (Nat.pow_lt_iff_lt_clog one_lt_two).mp hgt
  omega

theorem lvlFill_le {n L : Nat} (hnL : n ≤ 2 ^ L) :
    ∀ h, h ≤ L → lvlFill n L h ≤ 2 ^ (L - h) := by
  intro h
  induction h with
  | zero =>
    intro _
    rw [lvlFill, Nat.sub_zero]
    by_cases hpad : n % 2 = 1 ∧ 0 < L
    · rw [if_pos hpad]
      have h2 : 2 ≤ 2 ^ L := by
        calc 2 = 2 ^ 1 := (pow_one 2).symm
        _ ≤ 2 ^ L := Nat.pow_le_pow_right (by omega) hpad.2
      have hev : 2 ^ L % 2 = 0 := by
        obtain ⟨L', rfl⟩ := Nat.exists_eq_add_of_le hpad.2
        rw [pow_add, pow_one]
        omega
      omega
    · rw [if_neg hpad]; exact hnL
  | succ h ih =>
    intro hh
    have ihh := ih (by omega)
    have hpow : 2 * 2 ^ (L - (h + 1)) = 2 ^ (L - h) := by
      rw [← pow_succ']
      congr 1
      omega
    rw [lvlFill]
    by_cases hpad : lvlFill n L h / 2 % 2 = 1 ∧ 0 < L - (h + 1)
    · rw [if_pos hpad]
      have hev : 2 ^ (L - (h + 1)) % 2 = 0 := by
        obtain ⟨k, hk⟩ := Nat.exists_eq_add_of_le hpad.2
        rw [show L - (h+1) = k + 1 by omega, pow_succ]
        omega
      omega
    · rw [if_neg hpad]
      omega

theorem lvlFill_even {n L : Nat} : ∀ h, h < L → lvlFill n L h % 2 = 0 := by
  intro h
  induction h with
  | zero =>
    intro h0
    rw [lvlFill]
    by_cases hpad : n % 2 = 1 ∧ 0 < L
    · rw [if_pos hpad]; omega
    · rw [if_neg hpad]
      have : ¬ n % 2 = 1 := fun hc => hpad ⟨hc, h0⟩
      omega
  | succ h _ =>
    intro hh
    rw [lvlFill]
    by_cases hpad : lvlFill n L h / 2 % 2 = 1 ∧ 0 < L - (h + 1)
    · rw [if_pos hpad]; omega
    · rw [if_neg hpad]
      have hlt : 0 < L - (h + 1) := by omega
      have : ¬ lvlFill n L h / 2 % 2 = 1 := fun hc => hpad ⟨hc, hlt⟩
      omega

theorem lvlFill_pos {n L : Nat} (hn : 1 ≤ n) :
    ∀ h, h ≤ L → 1 ≤ lvlFill n L h := by
  intro h
  induction h with
  | zero =>
    intro _
    rw [lvlFill]
    by_cases hpad : n % 2 = 1 ∧ 0 < L
    · rw [if_pos hpad]; omega
    · rw [if_neg hpad]; omega
  | succ h ih =>
    intro hh
    have h1 := ih (by omega)
    have h2 := lvlFill_even (n := n) (L := L) h (by omega)
    rw [lvlFill]
    by_cases hpad : lvlFill n L h / 2 % 2 = 1 ∧ 0 < L - (h + 1)
    · rw [if_pos hpad]; omega
    · rw [if_neg hpad]; omega

theorem lvlFill_root {n L : Nat} (hn : 1 ≤ n) (hnL : n ≤ 2 ^ L)
    (hL0 : L = 0 → n ≤ 1) : lvlFill n L L = 1 := by
  cases L with
  | zero =>
    have : n = 1 := by have := hL0 rfl; omega
    subst this
    rw [lvlFill]
    simp
  | succ L' =>
    have hprev : lvlFill n (L' + 1) L' = 2 := by
      have h1 := lvlFill_pos (n := n) (L := L' + 1) hn L' (by omega)
      have h2 := lvlFill_even (n := n) (L := L' + 1) L' (by omega)
      have h3 := lvlFill_le hnL L' (by omega)
      rw [show L' + 1 - L' = 1 by omega, pow_one] at h3
      omega
    rw [lvlFill, hprev]
    simp

theorem fillLeaves_length {α : Type} (itemHash : α → Nat) :
    ∀ (data : List α) (fli : Nat) (ns : List (Option Nat)),
      (fillLeaves itemHash fli data ns).length = ns.length := by
  intro data
  induction data with
  | nil => intro fli ns; rfl
  | cons x rest ih =>
    intro fli ns
    rw [fillLeaves, ih]
    simp

theorem fillLeaves_nget_out {α : Type} (itemHash : α → Nat) :
    ∀ (data : List α) (fli : Nat) (ns : List (Option Nat)) (p : Nat),
      (p < fli ∨ fli + data.length ≤ p) →
      nget (fillLeaves itemHash fli data ns) p = nget ns p := by
  intro data
  induction data with
  | nil => intro fli ns p _; rfl
  | cons x rest ih =>
    intro fli ns p hp
    rw [fillLeaves, ih (fli + 1) _ p (by simp at hp ⊢; omega), nget_set]
    rw [if_neg]
    rintro ⟨rfl, -⟩
    simp only [List.length_cons] at hp
    omega

theorem fillLeaves_nget_in {α : Type} (itemHash : α → Nat) :
    ∀ (data : List α) (fli : Nat) (ns : List (Option Nat)) (i : Nat),
      i < data.length → fli + data.length ≤ ns.length →
      nget (fillLeaves itemHash fli data ns) (fli + i) =
        (data[i]?).map itemHash := by
  intro data
  induction data with
  | nil => intro fli ns i hi; simp at hi
  | cons x rest ih =>
    intro fli ns i hi hlen
    cases i with
    | zero =>
      rw [fillLeaves,
        fillLeaves_nget_out itemHash rest (fli + 1) _ (fli + 0) (by omega),
        nget_set, if_pos ⟨by omega, by simp at hlen; omega⟩]
      simp
    | succ i' =>
      rw [fillLeaves, show fli + (i' + 1) = (fli + 1) + i' by omega,
        ih (fli + 1) _ i' (by simp at hi; omega) (by simp at hlen ⊢; omega)]
      simp

theorem buildRow_length (combine : Nat → Nat → Nat) :
    ∀ (cnt p : Nat) (ns : List (Option Nat)),
      (buildRow combine p cnt ns).length = ns.length := by
  intro cnt
  induction cnt with
  | zero => intro p ns; rfl
  | succ c ih =>
    intro p ns
    rw [buildRow, ih]
    simp

theorem buildRow_nget_out (combine : Nat → Nat → Nat) :
    ∀ (cnt p : Nat) (ns : List (Option Nat)) (q : Nat),
      (q < p ∨ p + cnt ≤ q) →
      nget (buildRow combine p cnt ns) q = nget ns q := by
  intro cnt
  induction cnt with
  | zero => intro p ns q _; rfl
  | succ c ih =>
    intro p ns q hq
    rw [buildRow, ih (p + 1) _ q (by omega), nget_set, if_neg]
    rintro ⟨rfl, -⟩
    omega

theorem buildRow_nget_in (combine : Nat → Nat → Nat) :
    ∀ (cnt p : Nat) (ns : List (Option Nat)) (i : Nat),
      i < cnt → cnt ≤ p + 1 → p + cnt ≤ ns.length →
      nget (buildRow combine p cnt ns) (p + i) =
        some (combine ((nget ns (2 * (p + i) + 1)).getD 0)
          ((nget ns (2 * (p + i) + 2)).getD 0)) := by
  intro cnt
  induction cnt with
  | zero => intro p ns i hi; omega
  | succ c ih =>
    intro p ns i hi hcp hlen
    cases i with
    | zero =>
      rw [buildRow,
        buildRow_nget_out combine c (p + 1) _ (p + 0) (by omega),
        nget_set, if_pos ⟨by omega, by omega⟩]
      simp
    | succ i' =>
      rw [buildRow, show p + (i' + 1) = (p + 1) + i' by omega,
        ih (p + 1) _ i' (by omega) (by omega) (by simp; omega)]
      have h1 : nget (ns.set p (some (combine ((nget ns (2 * p + 1)).getD 0)
          ((nget ns (2 * p + 2)).getD 0))) ) (2 * (p + 1 + i') + 1) =
          nget ns (2 * (p + 1 + i') + 1) := by
        rw [nget_set, if_neg]; rintro ⟨he, -⟩; omega
      have h2 : nget (ns.set p (some (combine ((nget ns (2 * p + 1)).getD 0)
          ((nget ns (2 * p + 2)).getD 0))) ) (2 * (p + 1 + i') + 2) =
          nget ns (2 * (p + 1 + i') + 2) := by
        rw [nget_set, if_neg]; rintro ⟨he, -⟩; omega
      rw [h1, h2, show p + 1 + i' = p + (i' + 1) by omega]

/-- The level-building loop establishes the fill/parent-equation invariant:
starting from a filled leaf row, after `buildLevels` every level holds
`lvlFill` values and every computed parent is the combination of its two
children; positions at or above level `lv` are untouched. -/
theorem buildLevels_spec (combine : Nat → Nat → Nat) {n L : Nat}
    (hn : 1 ≤ n) (hnL : n ≤ 2 ^ L) :
    ∀ (lv : Nat) (ns : List (Option Nat)) (cnt : Nat),
      lv ≤ L →
      ns.length = 2 * 2 ^ L - 1 →
      (∀ h j, h ≤ L - lv → j < lvlFill n L h →
        (nget ns (2 ^ (L - h) - 1 + j)).isSome = true) →
      (∀ h j, h < L - lv → j < lvlFill n L h / 2 →
        nget ns (2 ^ (L - h - 1) - 1 + j) =
          some (combine ((nget ns (2 ^ (L - h) - 1 + 2 * j)).getD 0)
            ((nget ns (2 ^ (L - h) - 1 + (2 * j + 1))).getD 0))) →
      cnt = lvlFill n L (L - lv) / 2 →
      (buildLevels combine lv ns cnt).length = 2 * 2 ^ L - 1 ∧
      (∀ q, 2 ^ lv - 1 ≤ q →
        nget (buildLevels combine lv ns cnt) q = nget ns q) ∧
      (∀ h j, h ≤ L → j < lvlFill n L h →
        (nget (buildLevels combine lv ns cnt) (2 ^ (L - h) - 1 + j)).isSome = true) ∧
      (∀ h j, h < L → j < lvlFill n L h / 2 →
        nget (buildLevels combine lv ns cnt) (2 ^ (L - h - 1) - 1 + j) =
          some (combine
            ((nget (buildLevels combine lv ns cnt) (2 ^ (L - h) - 1 + 2 * j)).getD 0)
            ((nget (buildLevels combine lv ns cnt)
              (2 ^ (L - h) - 1 + (2 * j + 1))).getD 0))) := by
  intro lv
  induction lv with
  | zero =>
    intro ns cnt _ hlen hfill heq _
    refine ⟨hlen, fun q _ => rfl, ?_, ?_⟩
    · intro h j hh hj
      exact hfill h j (by omega) hj
    · intro h j hh hj
      exact heq h j (by omega) hj
  | succ lv ih =>
    intro ns cnt hlvL hlen hfill heq hcnt
    -- abbreviations for the level being built
    have hp2 : (2 : Nat) ^ (lv + 1) = 2 * 2 ^ lv := by rw [pow_succ]; ring
    have h1lv : 1 ≤ (2 : Nat) ^ lv := Nat.one_le_two_pow
    have hple : (2 : Nat) ^ (lv + 1) ≤ 2 ^ L := Nat.pow_le_pow_right (by omega) hlvL
    have hstar_lt : L - lv - 1 < L := by omega
    have hstar_le : L - lv - 1 ≤ L := by omega
    have hLlv : L - (lv + 1) = L - lv - 1 := by omega
    have heven : lvlFill n L (L - lv - 1) % 2 = 0 := lvlFill_even _ hstar_lt
    have hfpos : 1 ≤ lvlFill n L (L - lv - 1) := lvlFill_pos hn _ hstar_le
    have hfle : lvlFill n L (L - lv - 1) ≤ 2 ^ (lv + 1) := by
      have := lvlFill_le hnL (L - lv - 1) hstar_le
      have hexp : L - (L - lv - 1) = lv + 1 := by omega
      rwa [hexp] at this
    have hcnt' : 2 * cnt = lvlFill n L (L - lv - 1) := by
      rw [hcnt, hLlv]; omega
    have hcnt2lv : cnt ≤ 2 ^ lv := by omega
    have hcnt1 : 1 ≤ cnt := by omega
    -- the height L - lv, whose row is built in this step
    have hnext : lvlFill n L (L - lv) =
        if cnt % 2 = 1 ∧ 0 < lv then cnt + 1 else cnt := by
      have hsucc : L - lv = (L - lv - 1) + 1 := by omega
      rw [hsucc, lvlFill]
      have hdiv : lvlFill n L (L - lv - 1) / 2 = cnt := by omega
      rw [hdiv]
      have hc : L - ((L - lv - 1) + 1) = lv := by omega
      rw [hc]
    -- the row built at level lv
    set fi := 2 ^ lv - 1 with hfi
    set ns1 := buildRow combine fi cnt ns with hns1
    have hlen1 : ns1.length = 2 * 2 ^ L - 1 := by
      rw [hns1, buildRow_length, hlen]
    have hrow_in : ∀ j, j < cnt →
        nget ns1 (fi + j) =
          some (combine ((nget ns (2 ^ (lv + 1) - 1 + 2 * j)).getD 0)
            ((nget ns (2 ^ (lv + 1) - 1 + (2 * j + 1))).getD 0)) := by
      intro j hj
      rw [hns1, buildRow_nget_in combine cnt fi ns j hj (by omega)
        (by rw [hlen]; omega)]
      have e1 : 2 * (fi + j) + 1 = 2 ^ (lv + 1) - 1 + 2 * j := by omega
      have e2 : 2 * (fi + j) + 2 = 2 ^ (lv + 1) - 1 + (2 * j + 1) := by omega
      rw [e1, e2]
    have hrow_out : ∀ q, (q < fi ∨ fi + cnt ≤ q) → nget ns1 q = nget ns q := by
      intro q hq
      rw [hns1, buildRow_nget_out combine cnt fi ns q hq]
    -- the step result
    have hstep :
        buildStep combine lv ns cnt =
          (if cnt % 2 = 1 ∧ 0 < lv then
            (ns1.set (fi + cnt) (nget ns1 (fi + cnt - 1)), (cnt + 1) / 2)
          else (ns1, cnt / 2)) := by
      rw [buildStep]
    set ns2 := (buildStep combine lv ns cnt).1 with hns2
    set cnt2 := (buildStep combine lv ns cnt).2 with hcnt2
    have hdup_lt : (cnt % 2 = 1 ∧ 0 < lv) → fi + cnt < 2 ^ (lv + 1) - 1 := by
      rintro ⟨hodd, hlv0⟩
      have hev : (2 : Nat) ^ lv % 2 = 0 := by
        obtain ⟨k, hk⟩ := Nat.exists_eq_add_of_le hlv0
        rw [show lv = k + 1 by omega, pow_succ]
        omega
      omega
    have hlen2 : ns2.length = 2 * 2 ^ L - 1 := by
      rw [hns2, hstep]
      by_cases hd : cnt % 2 = 1 ∧ 0 < lv
      · rw [if_pos hd]; simpa using hlen1
      · rw [if_neg hd]; exact hlen1
    have hstep_keep : ∀ q, 2 ^ (lv + 1) - 1 ≤ q → nget ns2 q = nget ns q := by
      intro q hq
      have hout : nget ns1 q = nget ns q := hrow_out q (Or.inr (by omega))
      rw [hns2, hstep]
      by_cases hd : cnt % 2 = 1 ∧ 0 < lv
      · rw [if_pos hd]
        simp only
        rw [nget_set, if_neg, hout]
        rintro ⟨he, -⟩
        have := hdup_lt hd
        omega
      · rw [if_neg hd]; exact hout
    have hrow2_in : ∀ j, j < cnt →
        nget ns2 (fi + j) =
          some (combine ((nget ns (2 ^ (lv + 1) - 1 + 2 * j)).getD 0)
            ((nget ns (2 ^ (lv + 1) - 1 + (2 * j + 1))).getD 0)) := by
      intro j hj
      rw [hns2, hstep]
      by_cases hd : cnt % 2 = 1 ∧ 0 < lv
      · rw [if_pos hd]
        simp only
        rw [nget_set, if_neg, hrow_in j hj]
        rintro ⟨he, -⟩
        omega
      · rw [if_neg hd]
        exact hrow_in j hj
    have hfill2 : ∀ h j, h ≤ L - (lv + 1) + 1 → j < lvlFill n L h →
        (nget ns2 (2 ^ (L - h) - 1 + j)).isSome = true := by
      intro h j hh hj
      by_cases hup : h ≤ L - lv - 1
      · -- untouched levels above
        have hlevel : lv + 1 ≤ L - h := by omega
        have hpos : 2 ^ (lv + 1) - 1 ≤ 2 ^ (L - h) - 1 + j := by
          have := Nat.pow_le_pow_right (show 1 ≤ 2 by omega) hlevel
          omega
        rw [hstep_keep _ hpos]
        exact hfill h j (by omega) hj
      · -- the newly built row: h = L - lv
        have hh' : h = L - lv := by omega
        subst hh'
        rw [hnext] at hj
        have hexp : L - (L - lv) = lv := by omega
        rw [hexp]
        by_cases hd : cnt % 2 = 1 ∧ 0 < lv
        · rw [if_pos hd] at hj
          by_cases hjc : j < cnt
          · rw [show (2:Nat) ^ lv - 1 + j = fi + j by omega, hrow2_in j hjc]
            rfl
          · have hj' : j = cnt := by omega
            rw [show (2:Nat) ^ lv - 1 + j = fi + cnt by omega]
            rw [hns2, hstep, if_pos hd]
            simp only
            rw [nget_set, if_pos ⟨rfl, by rw [hlen1]; omega⟩]
            rw [show fi + cnt - 1 = fi + (cnt - 1) by omega,
              hrow_in (cnt - 1) (by omega)]
            rfl
        · rw [if_neg hd] at hj
          rw [show (2:Nat) ^ lv - 1 + j = fi + j by omega, hrow2_in j hj]
          rfl
    have heq2 : ∀ h j, h < L - (lv + 1) + 1 → j < lvlFill n L h / 2 →
        nget ns2 (2 ^ (L - h - 1) - 1 + j) =
          some (combine ((nget ns2 (2 ^ (L - h) - 1 + 2 * j)).getD 0)
            ((nget ns2 (2 ^ (L - h) - 1 + (2 * j + 1))).getD 0)) := by
      intro h j hh hj
      by_cases hup : h < L - lv - 1
      · -- previously established equations, all positions untouched
        have hl1 : lv + 1 ≤ L - h - 1 := by omega
        have hl2 : lv + 1 ≤ L - h := by omega
        have hq1 : 2 ^ (lv + 1) - 1 ≤ 2 ^ (L - h - 1) - 1 + j := by
          have := Nat.pow_le_pow_right (show 1 ≤ 2 by omega) hl1
          omega
        have hq2 : 2 ^ (lv + 1) - 1 ≤ 2 ^ (L - h) - 1 + 2 * j := by
          have := Nat.pow_le_pow_right (show 1 ≤ 2 by omega) hl2
          omega
        have hq3 : 2 ^ (lv + 1) - 1 ≤ 2 ^ (L - h) - 1 + (2 * j + 1) := by
          have := Nat.pow_le_pow_right (show 1 ≤ 2 by omega) hl2
          omega
        rw [hstep_keep _ hq1, hstep_keep _ hq2, hstep_keep _ hq3]
        exact heq h j (by omega) hj
      · -- the new equations of the freshly built row
        have hh' : h = L - lv - 1 := by omega
        subst hh'
        have hjc : j < cnt := by omega
        have he1 : L - (L - lv - 1) - 1 = lv := by omega
        have he2 : L - (L - lv - 1) = lv + 1 := by omega
        rw [he1, he2]
        have hchild1 : 2 ^ (lv + 1) - 1 ≤ 2 ^ (lv + 1) - 1 + 2 * j := by omega
        have hchild2 : 2 ^ (lv + 1) - 1 ≤ 2 ^ (lv + 1) - 1 + (2 * j + 1) := by
          omega
        rw [hstep_keep _ hchild1, hstep_keep _ hchild2]
        rw [show (2:Nat) ^ lv - 1 + j = fi + j by omega]
        exact hrow2_in j hjc
    have hcnt2_eq : cnt2 = lvlFill n L (L - lv) / 2 := by
      rw [hcnt2, hstep, hnext]
      by_cases hd : cnt % 2 = 1 ∧ 0 < lv
      · rw [if_pos hd, if_pos hd]
      · rw [if_neg hd, if_neg hd]
    have hres := ih ns2 cnt2 (by omega) hlen2
      (by intro h j hh hj; exact hfill2 h j (by omega) hj)
      (by intro h j hh hj; exact heq2 h j (by omega) hj)
      hcnt2_eq
    have hbuild : buildLevels combine (lv + 1) ns cnt = buildLevels combine lv ns2 cnt2 := by
      rw [buildLevels]
    rw [hbuild]
    obtain ⟨r1, r2, r3, r4⟩ := hres
    refine ⟨r1, ?_, r3, r4⟩
    intro q hq
    have hq' : 2 ^ lv - 1 ≤ q := by
      have := Nat.pow_le_pow_right (show 1 ≤ 2 by omega) (show lv ≤ lv + 1 by omega)
      omega
    rw [r2 q hq', hstep_keep q hq]

/-- On a node array satisfying the fill/parent-equation invariant, the proof
walk from a filled slot at level `l` succeeds and `verify`'s fold of the
collected siblings reconstructs the root. -/
theorem merkle_walk (combine : Nat → Nat → Nat) {n L : Nat} (hn : 1 ≤ n)
    (hnL : n ≤ 2 ^ L) (hL0 : L = 0 → n ≤ 1) (ns : List (Option Nat))
    (hfill : ∀ h j, h ≤ L → j < lvlFill n L h →
      (nget ns (2 ^ (L - h) - 1 + j)).isSome = true)
    (heqs : ∀ h j, h < L → j < lvlFill n L h / 2 →
      nget ns (2 ^ (L - h - 1) - 1 + j) =
        some (combine ((nget ns (2 ^ (L - h) - 1 + 2 * j)).getD 0)
          ((nget ns (2 ^ (L - h) - 1 + (2 * j + 1))).getD 0))) :
    ∀ l, l ≤ L → ∀ j, j < lvlFill n L (L - l) →
      ∃ ps, proofWalk ns l (2 ^ l - 1 + j) = some ps ∧
        (ps.foldl
          (fun acc sibling_hash =>
            if acc.1 % 2 = 0 then ((acc.1 - 2) / 2, combine sibling_hash acc.2)
            else ((acc.1 - 1) / 2, combine acc.2 sibling_hash))
          (2 ^ l - 1 + j, (nget ns (2 ^ l - 1 + j)).getD 0)).2 =
        (nget ns 0).getD 0 := by
  intro l
  induction l with
  | zero =>
    intro _ j hj
    rw [Nat.sub_zero, lvlFill_root hn hnL hL0] at hj
    have hj0 : j = 0 := by omega
    subst hj0
    exact ⟨[], rfl, by simp⟩
  | succ l ih =>
    intro hlL j hj
    have hp2 : (2 : Nat) ^ (l + 1) = 2 * 2 ^ l := by rw [pow_succ]; ring
    have h1l : 1 ≤ (2 : Nat) ^ l := Nat.one_le_two_pow
    have hcur_lt : L - l - 1 < L := by omega
    have hLl1 : L - (l + 1) = L - l - 1 := by omega
    have heven : lvlFill n L (L - (l + 1)) % 2 = 0 := by
      rw [hLl1]; exact lvlFill_even _ hcur_lt
    have hnext_ge : lvlFill n L (L - (l + 1)) / 2 ≤ lvlFill n L (L - l) := by
      have hsucc : L - l = (L - (l + 1)) + 1 := by omega
      rw [hsucc, lvlFill]
      by_cases hd : lvlFill n L (L - (l + 1)) / 2 % 2 = 1 ∧
          0 < L - ((L - (l + 1)) + 1)
      · rw [if_pos hd]; omega
      · rw [if_neg hd]
    have hj2 : j / 2 < lvlFill n L (L - l) := by omega
    obtain ⟨ps', hps', hfold'⟩ := ih (by omega) (j / 2) hj2
    have hexp1 : L - (L - (l + 1)) = l + 1 := by omega
    have hexp2 : L - (L - (l + 1)) - 1 = l := by omega
    rcases Nat.even_or_odd j with hpar | hpar
    · -- j even: the current node is a left child
      have hje : j % 2 = 0 := Nat.even_iff.mp hpar
      have hq_odd : (2 ^ (l + 1) - 1 + j) % 2 = 1 := by omega
      have hsib_lt : j + 1 < lvlFill n L (L - (l + 1)) := by omega
      have hsib_some := hfill (L - (l + 1)) (j + 1) (by omega) hsib_lt
      rw [hexp1] at hsib_some
      obtain ⟨sib, hsib⟩ := Option.isSome_iff_exists.mp hsib_some
      have hup : (2 ^ (l + 1) - 1 + j -
          (if (2 ^ (l + 1) - 1 + j) % 2 = 0 then 2 else 1)) / 2 =
          2 ^ l - 1 + j / 2 := by
        rw [if_neg (by omega)]
        omega
      have hwalk : proofWalk ns (l + 1) (2 ^ (l + 1) - 1 + j) =
          some (sib :: ps') := by
        rw [proofWalk, if_neg (by omega),
          show 2 ^ (l + 1) - 1 + j + 1 = 2 ^ (l + 1) - 1 + (j + 1) by omega,
          hsib, hup, hps']
      refine ⟨sib :: ps', hwalk, ?_⟩
      rw [List.foldl_cons]
      have hkey := heqs (L - (l + 1)) (j / 2) (by omega) (by omega)
      rw [hexp2, hexp1, show 2 * (j / 2) = j by omega, hsib] at hkey
      simp only [Option.getD_some] at hkey
      show (List.foldl
          (fun acc sibling_hash =>
            if acc.1 % 2 = 0 then ((acc.1 - 2) / 2, combine sibling_hash acc.2)
            else ((acc.1 - 1) / 2, combine acc.2 sibling_hash))
          (if (2 ^ (l + 1) - 1 + j) % 2 = 0 then
            ((2 ^ (l + 1) - 1 + j - 2) / 2,
              combine sib ((nget ns (2 ^ (l + 1) - 1 + j)).getD 0))
          else
            ((2 ^ (l + 1) - 1 + j - 1) / 2,
              combine ((nget ns (2 ^ (l + 1) - 1 + j)).getD 0) sib))
          ps').2 = (nget ns 0).getD 0
      rw [if_neg (by omega),
        show combine ((nget ns (2 ^ (l + 1) - 1 + j)).getD 0) sib =
          (nget ns (2 ^ l - 1 + j / 2)).getD 0 by rw [hkey]; rfl,
        show (2 ^ (l + 1) - 1 + j - 1) / 2 = 2 ^ l - 1 + j / 2 by omega]
      exact hfold'
    · -- j odd: the current node is a right child
      have hjo : j % 2 = 1 := Nat.odd_iff.mp hpar
      have hq_ev : (2 ^ (l + 1) - 1 + j) % 2 = 0 := by omega
      have hsib_lt : j - 1 < lvlFill n L (L - (l + 1)) := by omega
      have hsib_some := hfill (L - (l + 1)) (j - 1) (by omega) hsib_lt
      rw [hexp1] at hsib_some
      obtain ⟨sib, hsib⟩ := Option.isSome_iff_exists.mp hsib_some
      have hwalk : proofWalk ns (l + 1) (2 ^ (l + 1) - 1 + j) =
          some (sib :: ps') := by
        rw [proofWalk, if_pos (by omega),
          show 2 ^ (l + 1) - 1 + j - 1 = 2 ^ (l + 1) - 1 + (j - 1) by omega,
          hsib, if_pos (by omega),
          show (2 ^ (l + 1) - 1 + j - 2) / 2 = 2 ^ l - 1 + j / 2 by omega,
          hps']
      refine ⟨sib :: ps', hwalk, ?_⟩
      rw [List.foldl_cons]
      have hkey := heqs (L - (l + 1)) (j / 2) (by omega) (by omega)
      rw [hexp2, hexp1, show 2 * (j / 2) = j - 1 by omega,
        show 2 ^ (l + 1) - 1 + (j - 1 + 1) = 2 ^ (l + 1) - 1 + j by omega,
        hsib] at hkey
      simp only [Option.getD_some] at hkey
      show (List.foldl
          (fun acc sibling_hash =>
            if acc.1 % 2 = 0 then ((acc.1 - 2) / 2, combine sibling_hash acc.2)
            else ((acc.1 - 1) / 2, combine acc.2 sibling_hash))
          (if (2 ^ (l + 1) - 1 + j) % 2 = 0 then
            ((2 ^ (l + 1) - 1 + j - 2) / 2,
              combine sib ((nget ns (2 ^ (l + 1) - 1 + j)).getD 0))
          else
            ((2 ^ (l + 1) - 1 + j - 1) / 2,
              combine ((nget ns (2 ^ (l + 1) - 1 + j)).getD 0) sib))
          ps').2 = (nget ns 0).getD 0
      rw [if_pos (by omega),
        show combine sib ((nget ns (2 ^ (l + 1) - 1 + j)).getD 0) =
          (nget ns (2 ^ l - 1 + j / 2)).getD 0 by rw [hkey]; rfl,
        show (2 ^ (l + 1) - 1 + j - 2) / 2 = 2 ^ l - 1 + j / 2 by omega]
      exact hfold'

/-- **C5.** Merkle round-trip: for every non-empty list of hashable leaves
`data` of length `n` and every `i < n`,
`verify(root(data), hash(data[i]), proof(i), i, n)` holds, where the root and
the proof come from the tree built over `data` (the proof walk succeeds, so
none of the source's `unwrap()`s fires); `verify` returns `false` whenever
`index ≥ leaf_size`; and the empty tree has the all-zero root (`0`), empty
proofs at every index, and `verify` over zero leaves always fails.  Stated
for every choice of the external SHA-256 child combiner and leaf hash. -/
theorem merkle_roundtrip {α : Type} (combine : Nat → Nat → Nat)
    (itemHash : α → Nat) :
    (∀ (data : List α) (i : Nat) (hne : data ≠ []) (hi : i < data.length),
      ∃ r ps, (MerkleTree.new combine itemHash data).root = some r ∧
        (MerkleTree.new combine itemHash data).proof i = some ps ∧
        verify combine r (itemHash (data.get ⟨i, hi⟩)) ps i data.length = true)
    ∧ (∀ (root datum : Nat) (proof : List Nat) (index leaf_size : Nat),
        leaf_size ≤ index →
        verify combine root datum proof index leaf_size = false)
    ∧ (MerkleTree.new combine itemHash ([] : List α)).root = some 0
    ∧ (∀ index,
        (MerkleTree.new combine itemHash ([] : List α)).proof index = some [])
    ∧ (∀ (root datum : Nat) (proof : List Nat) (index : Nat),
        verify combine root datum proof index 0 = false) := by
  refine ⟨?_, ?_, rfl, by intro index; simp [MerkleTree.new, MerkleTree.proof], ?_⟩
  · intro data i hne hi
    have hn : 1 ≤ data.length := List.length_pos.mpr hne
    set n := data.length with hn_def
    set L := Nat.clog 2 n with hL_def
    have hnL : n ≤ 2 ^ L := Nat.le_pow_clog one_lt_two n
    have hL0 : L = 0 → n ≤ 1 := by
      intro h0
      have := hnL
      rw [h0, pow_zero] at this
      exact this
    have h1L : 1 ≤ (2 : Nat) ^ L := Nat.one_le_two_pow
    have hnp : npow2 n = 2 ^ L := by rw [npow2, ← hL_def]
    have hml : Nat.log 2 (npow2 n) = L := by rw [log2_npow2, ← hL_def]
    have hempty : data.isEmpty = false := by
      cases data with
      | nil => exact absurd rfl hne
      | cons x xs => rfl
    have hlc : merkleLeafCount n = lvlFill n L 0 := by
      rw [merkleLeafCount, lvlFill, hml]
    have hlc_ge : n ≤ lvlFill n L 0 := by
      rw [lvlFill]
      by_cases hd : n % 2 = 1 ∧ 0 < L
      · rw [if_pos hd]; omega
      · rw [if_neg hd]
    -- the leaf row
    have hfl_len : (fillLeaves itemHash (2 ^ L - 1) data
        (List.replicate (2 * 2 ^ L - 1) (none : Option Nat))).length =
        2 * 2 ^ L - 1 := by
      rw [fillLeaves_length, List.length_replicate]
    have hbase : merkleBase itemHash data =
        (if n % 2 = 1 ∧ 0 < L then
          (fillLeaves itemHash (2 ^ L - 1) data
            (List.replicate (2 * 2 ^ L - 1) none)).set (2 ^ L - 1 + n)
            (nget (fillLeaves itemHash (2 ^ L - 1) data
              (List.replicate (2 * 2 ^ L - 1) none)) (2 ^ L - 1 + n - 1))
        else fillLeaves itemHash (2 ^ L - 1) data
          (List.replicate (2 * 2 ^ L - 1) none)) := by
      simp only [merkleBase]
      rw [← hn_def, hml, hnp]
    have hbase_len : (merkleBase itemHash data).length = 2 * 2 ^ L - 1 := by
      rw [hbase]
      by_cases hd : n % 2 = 1 ∧ 0 < L
      · rw [if_pos hd, List.length_set, hfl_len]
      · rw [if_neg hd, hfl_len]
    have hleaf_val : ∀ j, j < n →
        nget (merkleBase itemHash data) (2 ^ L - 1 + j) =
          (data[j]?).map itemHash := by
      intro j hj
      have hfl : nget (fillLeaves itemHash (2 ^ L - 1) data
          (List.replicate (2 * 2 ^ L - 1) none)) (2 ^ L - 1 + j) =
          (data[j]?).map itemHash := by
        rw [fillLeaves_nget_in itemHash data (2 ^ L - 1) _ j hj
          (by rw [List.length_replicate, ← hn_def]; omega)]
      rw [hbase]
      by_cases hd : n % 2 = 1 ∧ 0 < L
      · rw [if_pos hd, nget_set, if_neg (by rintro ⟨he, -⟩; omega)]
        exact hfl
      · rw [if_neg hd]
        exact hfl
    have hbase_fill : ∀ j, j < lvlFill n L 0 →
        (nget (merkleBase itemHash data) (2 ^ L - 1 + j)).isSome = true := by
      intro j hj
      by_cases hjn : j < n
      · rw [hleaf_val j hjn, List.getElem?_eq_getElem (by omega)]
        rfl
      · -- the duplicated leaf: only present when the row was padded
        have hpad : n % 2 = 1 ∧ 0 < L := by
          by_contra hc
          rw [lvlFill, if_neg hc] at hj
          omega
        have hjn' : j = n := by
          rw [lvlFill, if_pos hpad] at hj
          omega
        subst hjn'
        have h2ev : (2 : Nat) ^ L % 2 = 0 := by
          obtain ⟨k, hk⟩ := Nat.exists_eq_add_of_le hpad.2
          rw [show L = k + 1 by omega, pow_succ]
          omega
        rw [hbase, if_pos hpad, nget_set,
          if_pos ⟨rfl, by rw [hfl_len]; omega⟩,
          show 2 ^ L - 1 + n - 1 = 2 ^ L - 1 + (n - 1) by omega,
          fillLeaves_nget_in itemHash data (2 ^ L - 1) _ (n - 1) (by omega)
            (by rw [List.length_replicate, ← hn_def]; omega),
          List.getElem?_eq_getElem (by omega)]
        rfl
    -- run the level loop
    have hNS := buildLevels_spec combine hn hnL L (merkleBase itemHash data)
      (merkleLeafCount n / 2) (le_refl L) hbase_len
      (by
        intro h j hh hj
        have h0 : h = 0 := by omega
        subst h0
        rw [Nat.sub_zero]
        exact hbase_fill j hj)
      (by intro h j hh; omega)
      (by rw [hlc, Nat.sub_self])
    obtain ⟨hNSlen, hNSkeep, hNSfill, hNSeq⟩ := hNS
    have hNodes : merkleNodes combine itemHash data =
        buildLevels combine L (merkleBase itemHash data)
          (merkleLeafCount n / 2) := by
      rw [merkleNodes, ← hn_def, hml]
    set NS := buildLevels combine L (merkleBase itemHash data)
      (merkleLeafCount n / 2) with hNS_def
    -- the root is present
    have hroot_some : (nget NS 0).isSome = true := by
      have := hNSfill L 0 (le_refl L)
        (by rw [lvlFill_root hn hnL hL0]; omega)
      rw [Nat.sub_self, pow_zero] at this
      simpa using this
    obtain ⟨r, hr⟩ := Option.isSome_iff_exists.mp hroot_some
    -- the tree produced by new
    have hnew : MerkleTree.new combine itemHash data =
        { root := nget NS 0, nodes := NS, leaf_count := merkleLeafCount n } := by
      rw [MerkleTree.new, hempty]
      simp only [Bool.false_eq_true, if_false]
      rw [hNodes, ← hn_def]
    -- leaf values survive the level loop
    have hleafNS : nget NS (2 ^ L - 1 + i) = some (itemHash (data.get ⟨i, hi⟩)) := by
      rw [hNSkeep _ (by omega), hleaf_val i hi,
        List.getElem?_eq_getElem hi]
      rfl
    -- the walk
    obtain ⟨ps, hps, hfold⟩ := merkle_walk combine hn hnL hL0 NS hNSfill hNSeq
      L (le_refl L) i (by rw [Nat.sub_self]; omega)
    refine ⟨r, ps, ?_, ?_, ?_⟩
    · rw [hnew]
      exact hr
    · rw [hnew, MerkleTree.proof]
      simp only
      rw [if_neg (by rw [hlc]; omega), hNSlen]
      rcases Nat.eq_zero_or_pos L with hLz | hLpos
      · have hn1 : n = 1 := by have := hL0 hLz; omega
        have hi0 : i = 0 := by omega
        rw [hLz] at hps ⊢
        simp only [pow_zero] at hps ⊢
        rw [show 2 * 1 - 1 = 1 by omega, npow2_one, hi0]
        simpa using hps
      · rw [npow2_two_pow_mul hLpos, Nat.log_pow (by omega),
          show L + 1 - 1 = L by omega,
          show 2 ^ (L + 1) / 2 - 1 + i = 2 ^ L - 1 + i by
            rw [pow_succ]; omega]
        exact hps
    · rw [verify, if_neg (by omega), hnp]
      have hstart : (2 ^ L - 1 + i, itemHash (data.get ⟨i, hi⟩)) =
          (2 ^ L - 1 + i, (nget NS (2 ^ L - 1 + i)).getD 0) := by
        rw [hleafNS]
        rfl
      rw [hstart, hfold, hr]
      simp
  · intro root datum proof index leaf_size h
    rw [verify, if_pos h]
  · intro root datum proof index
    rw [verify, if_pos (Nat.zero_le index)]

/-! ### Witnesses and the C4 counterexample -/

theorem insert_result_classification_witness :
    ((Blockchain.new testCrypto).insert testCrypto testBlock1).1 = .ok ∧
      alookup ((Blockchain.new testCrypto).insert testCrypto testBlock1).2.map
          (testBlock1.hash testCrypto) =
        some ⟨testBlock1, 1,
          applyBlockTxns testCrypto (genesisState testCrypto)
            testBlock1.content.transactions⟩ :=
  (insert_result_classification testCrypto (Blockchain.new testCrypto)
        testBlock1).2.2
    ⟨genesisBlock, 0, genesisState testCrypto⟩ (by decide) (by decide)
    (by decide)

theorem insert_atomic_on_failure_witness :
    ((Blockchain.new testCrypto).insert testCrypto
        { testBlock1 with header := { testBlock1.header with parent := 555 } }).2 =
      Blockchain.new testCrypto :=
  insert_atomic_on_failure testCrypto (Blockchain.new testCrypto)
    { testBlock1 with header := { testBlock1.header with parent := 555 } }
    true (by decide)

theorem tip_maximal_and_update_witness :
    ((Blockchain.new testCrypto).insert testCrypto testBlock1).2.tip =
      testBlock1.hash testCrypto :=
  (((tip_maximal_and_update testCrypto (Blockchain.new testCrypto)
        Reachable.base).2.1 testBlock1
      ⟨genesisBlock, 0, genesisState testCrypto⟩
      ⟨genesisBlock, 0, genesisState testCrypto⟩
      (by decide) (by decide) (by decide)).1) (by decide)

theorem all_blocks_in_longest_chain_witness :
    ∃ t, alookup testChain1.map testChain1.tip = some t ∧
      testChain1.all_blocks_in_longest_chain.head? =
        some (genesisBlock.hash testCrypto) ∧
      testChain1.all_blocks_in_longest_chain.getLast? = some testChain1.tip ∧
      testChain1.all_blocks_in_longest_chain.length = t.height + 1 ∧
      List.Chain'
        (fun a b => ∃ n, alookup testChain1.map b = some n ∧ n.block.get_parent = a)
        testChain1.all_blocks_in_longest_chain :=
  all_blocks_in_longest_chain_spec testCrypto testChain1
    (Reachable.step testBlock1 Reachable.base)

/-- **C4 counterexample.** Inserting `testBlockAbsent` succeeds and its only
transaction pays 500 to the address 777, which is absent from the parent
state; the claim would require the stored state to bind 777 to `(0, 500)`,
but the code stores a state in which 777 is still unbound (the
`if let Some` on the receiver lookup silently skips absent receivers). -/
theorem insert_absent_receiver_counterexample :
    ((Blockchain.new testCrypto).insert testCrypto testBlockAbsent).1 = .ok
    ∧ alookup (genesisState testCrypto).map 777 = none
    ∧ ((Blockchain.new testCrypto).insert testCrypto testBlockAbsent).2.get_state
        (testBlockAbsent.hash testCrypto) =
      some (applyBlockTxns testCrypto (genesisState testCrypto)
        testBlockAbsent.content.transactions)
    ∧ alookup (applyBlockTxns testCrypto (genesisState testCrypto)
        testBlockAbsent.content.transactions).map 777 = none := by
  decide

theorem insert_stored_state_witness :
    ((Blockchain.new testCrypto).insert testCrypto testBlockAbsent).2.get_state
        (testBlockAbsent.hash testCrypto) =
      some (applyBlockTxns testCrypto (genesisState testCrypto)
        testBlockAbsent.content.transactions) :=
  (insert_stored_state testCrypto (Blockchain.new testCrypto) testBlockAbsent
    (by decide) ⟨genesisBlock, 0, genesisState testCrypto⟩ (by decide)).1

theorem blocks_handler_diverges_witness :
    blocksRun testCrypto 57
      ⟨[testBadPowBlock], 0, Blockchain.new testCrypto, ⟨[]⟩, [], [], []⟩ = none :=
  blocks_handler_diverges testCrypto (Blockchain.new testCrypto) ⟨[]⟩
    testBadPowBlock (Or.inl (by decide)) 57

theorem miner_selection_spec_witness :
    ∃ txs rem,
      minerSelectLoop testCrypto (genesisState testCrypto)
          ((Mempool.mk [(77, testTxn)]).map.map Prod.snd) [] [] = some (txs, rem) ∧
      minerSelect testCrypto (genesisState testCrypto) (Mempool.mk [(77, testTxn)]) =
        some (txs, ⟨rem.foldl (fun m h => aremove m h) (Mempool.mk [(77, testTxn)]).map⟩) ∧
      txs.length ≤ BLOCK_SIZE_LIMIT ∧
      List.Pairwise
        (fun a b => testCrypto.addrOfPk a.public_key ≠ testCrypto.addrOfPk b.public_key)
        txs ∧
      AcceptedOk testCrypto (genesisState testCrypto) txs ∧
      (∃ k, rem =
        (((Mempool.mk [(77, testTxn)]).map.map Prod.snd).take k).map testCrypto.hashTx) ∧
      ∀ h ∈ rem,
        alookup (rem.foldl (fun m k => aremove m k) (Mempool.mk [(77, testTxn)]).map) h =
          none :=
  miner_selection_spec testCrypto (genesisState testCrypto)
    (Mempool.mk [(77, testTxn)]) (by decide)

theorem miner_selection_panic_characterization_witness :
    (minerSelect testCrypto (genesisState testCrypto)
      (Mempool.mk [(77, testTxn)])).isSome = true :=
  miner_selection_panic_characterization.1 testCrypto (genesisState testCrypto)
    (Mempool.mk [(77, testTxn)]) (by decide)

theorem merkle_roundtrip_witness :
    ∃ r ps,
      (MerkleTree.new (fun a b => a + 2 * b) (fun x : Nat => x + 1)
        ([5, 6, 7] : List Nat)).root = some r ∧
      (MerkleTree.new (fun a b => a + 2 * b) (fun x : Nat => x + 1)
        ([5, 6, 7] : List Nat)).proof 2 = some ps ∧
      verify (fun a b => a + 2 * b) r
        ((fun x : Nat => x + 1) (([5, 6, 7] : List Nat).get ⟨2, by decide⟩)) ps 2
        ([5, 6, 7] : List Nat).length = true :=
  (merkle_roundtrip (fun a b => a + 2 * b) (fun x : Nat => x + 1)).1
    [5, 6, 7] 2 (by decide) (by decide)

theorem mempool_signature_invariant_witness :
    MempoolSigValid sigCrypto
      (relayInsert sigCrypto ⟨[]⟩
        { transaction := { account_nonce := 1, receiver := 1, value := 400 },
          signature := 401, public_key := 0 }) :=
  mempool_signature_invariant.2 sigCrypto (genesisState sigCrypto) ⟨[]⟩ 0 1 400
    { transaction := { account_nonce := 1, receiver := 1, value := 400 },
      signature := 401, public_key := 0 }
    (by intro t k; simp [sigCrypto])
    (by intro k t h; simp [alookup] at h)
    (by decide)

end BitcoinRust
